import Mathlib

set_option maxRecDepth 8000
set_option maxHeartbeats 1600000

/-!
Shallow embedding of `src/updateFileName.py` (firmware-version rewriter).

A file is modelled as a `List String`, one element per line (line
terminators stripped; the script never inspects them).  Python's string
operations used by the script are embedded at the character-list level:
`pat in line` becomes `occursIn`, `int(line.split("(")[1].split(")")[0])`
becomes `parseParen`, `str`/`"%d" %` become `natRepr`/`intRepr`
(standard decimal rendering, as Python's), and `str.strip`-aware
`int(...)` becomes `pyInt`.  An uncaught Python exception (IndexError /
ValueError while parsing a marker line) is modelled as `none`: the run
aborts before `os.replace`, so the original file is unchanged.
-/

namespace UpdateFW

/-- `listPre p l`: the char list `p` is an initial segment of `l`. -/
def listPre : List Char → List Char → Bool
  | [], _ => true
  | _ :: _, [] => false
  | a :: as, b :: bs => a == b && listPre as bs

/-- `subAt p l`: `p` occurs as a contiguous segment of `l`
(Python's `p in l` on strings). -/
def subAt : List Char → List Char → Bool
  | p, [] => p.isEmpty
  | p, c :: rest => listPre p (c :: rest) || subAt p rest

/-- Python's substring containment `pat in line`. -/
def occursIn (pat line : String) : Bool := subAt pat.data line.data

/-- Whitespace characters stripped by Python's `int(str)` conversion. -/
def isPySpace (c : Char) : Bool :=
  c = ' ' || c = '\t' || c = '\n' || c = '\r' || c = '\x0b' || c = '\x0c'

/-- Python `str.strip()` (whitespace on both ends). -/
def stripPy (l : List Char) : List Char :=
  ((l.dropWhile isPySpace).reverse.dropWhile isPySpace).reverse

/-- Decimal digit value of a character, if it is `'0'..'9'`. -/
def digitVal (c : Char) : Option Nat :=
  if '0' ≤ c ∧ c ≤ '9' then some (c.toNat - '0'.toNat) else none

/-- Digit run with Python's underscore rule: a single `'_'` may appear
only between two digits (`int("1_0") = 10`, `int("1__0")`/`int("1_")`
raise). `acc` is the value of the digits already consumed. -/
def parseUAux : Nat → List Char → Option Nat
  | acc, [] => some acc
  | acc, c :: rest =>
    if c = '_' then
      match rest with
      | [] => none
      | c2 :: rest2 => (digitVal c2).bind (fun d => parseUAux (acc * 10 + d) rest2)
    else (digitVal c).bind (fun d => parseUAux (acc * 10 + d) rest)

/-- Nonempty digit run (first char must be a digit). -/
def parseDigits : List Char → Option Nat
  | [] => none
  | c :: rest => (digitVal c).bind (fun d => parseUAux d rest)

/-- Sign dispatch of Python's `int` after whitespace stripping. -/
def pyIntCore : List Char → Option Int
  | [] => none
  | c :: rest =>
    if c = '-' then (parseDigits rest).map (fun n => -(n : Int))
    else if c = '+' then (parseDigits rest).map (fun n => (n : Int))
    else (parseDigits (c :: rest)).map (fun n => (n : Int))

/-- Python's `int(s)` on a character list: strip whitespace, optional
sign, nonempty digit run; `none` models the `ValueError`. -/
def pyInt (l : List Char) : Option Int := pyIntCore (stripPy l)

/-- Characters after the first `'('` of the list; `none` when there is
no `'('` (Python's `line.split("(")[1]` raising `IndexError`). -/
def afterFirstOpen : List Char → Option (List Char)
  | [] => none
  | c :: rest => if c = '(' then some rest else afterFirstOpen rest

/-- Characters up to (excluding) the next `'('` or `')'`.  Composed
with `afterFirstOpen` this is exactly `line.split("(")[1].split(")")[0]`:
that slice is the text between the first `'('` and the following `'('`
or `')'`, whichever comes first, or the end of the line. -/
def upToStop : List Char → List Char
  | [] => []
  | c :: rest => if c = '(' ∨ c = ')' then [] else c :: upToStop rest

/-- `int(line.split("(")[1].split(")")[0])` — the marker-value parse. -/
def parseParen (line : String) : Option Int :=
  (afterFirstOpen line.data).bind (fun r => pyInt (upToStop r))

/-- The same slice without the `int` conversion, used to "re-read" a
marker's raw parenthesized text. -/
def parenText (line : String) : Option String :=
  (afterFirstOpen line.data).map (fun r => String.mk (upToStop r))

/-- Character for a digit value (`0 ↦ '0'`, …). -/
def digitChar (d : Nat) : Char := Char.ofNat ('0'.toNat + d)

/-- Decimal digit characters of `n`, most significant first; fuel-based
so that it is structurally recursive (any `fuel > n` suffices, and in
particular `n + 1`). -/
def natDigitsAux : Nat → Nat → List Char
  | 0, _ => []
  | fuel + 1, n =>
    if n < 10 then [digitChar n] else natDigitsAux fuel (n / 10) ++ [digitChar (n % 10)]

/-- Python's `str(n)` for a natural number (standard decimal). -/
def natRepr (n : Nat) : String := String.mk (natDigitsAux (n + 1) n)

/-- Python's `str(i)` / `"%d" % i` for an integer. -/
def intRepr (i : Int) : String :=
  if i < 0 then "-" ++ natRepr i.natAbs else natRepr i.natAbs

/-- The `while len(day_of_year) < 3: day_of_year = "0" + day_of_year`
left zero-padding. -/
def pad3 (s : List Char) : List Char := List.replicate (3 - s.length) '0' ++ s

/-- `version_num_str = str(datetime.now().year)[2:] + zero-padded day`:
the script's date code, parametrized by the invocation date. -/
def dateCode (year yday : Nat) : String :=
  String.mk ((natRepr year).data.drop 2 ++ pad3 (natRepr yday).data)

/-- `major_regex % v` (note: the script's only numeric template besides
the revision one; the minor branch reuses it — see `processLine`). -/
def majorTemplate (v : Int) : String :=
  "    #define FW_MAJOR_VERSION (" ++ intRepr v ++ ")"

/-- `revision_regx % v`. -/
def revisionTemplate (v : Int) : String :=
  "    #define FW_REVISION_VERSION (" ++ intRepr v ++ ")"

/-- `version_str` built from the date code. -/
def versionTemplate (dc : String) : String :=
  "    #define FW_VERSION_VERSION (" ++ dc ++ ")"

def majPat : String := "#define FW_MAJOR_VERSION"

def minPat : String := "#define FW_MINOR_VERSION"

def verPat : String := "#define FW_VERSION_VERSION"

def revPat : String := "#define FW_REVISION_VERSION"

/-- The scan's mutable state: the (possibly still-unset) major/minor
versions, the same-day flag and the running revision value. -/
structure ScanState where
  major_version : Option Int
  minor_version : Option Int
  same_day : Bool
  rev_number : Int
deriving DecidableEq

/-- One iteration of the `for line in original_file` loop: returns the
updated state and the line written to the temp file, or `none` on an
uncaught parse exception.  Mirrors the `if/elif` chain of the source,
including the slip in the minor branch, which formats the override with
`major_regex` (source line 84). -/
def processLine (dc : String) (st : ScanState) (line : String) :
    Option (ScanState × String) :=
  if occursIn majPat line then
    match st.major_version with
    | none =>
      (parseParen line).map
        (fun v => ({ st with major_version := some v, rev_number := v }, line))
    | some mv => some (st, majorTemplate mv)
  else if occursIn minPat line then
    match st.minor_version with
    | none =>
      (parseParen line).map
        (fun v => ({ st with minor_version := some v, rev_number := v }, line))
    | some mv => some (st, majorTemplate mv)
  else if occursIn verPat line then
    some ({ st with same_day := st.same_day || occursIn dc line }, versionTemplate dc)
  else if occursIn revPat line then
    if st.same_day then
      (parseParen line).map
        (fun v => ({ st with rev_number := v + 1 }, revisionTemplate (v + 1)))
    else
      some (st, revisionTemplate st.rev_number)
  else
    some (st, line)

/-- The whole read/write loop over the file's lines. -/
def scanLines (dc : String) : ScanState → List String → Option (ScanState × List String)
  | st, [] => some (st, [])
  | st, l :: ls =>
    match processLine dc st l with
    | none => none
    | some (st2, out) =>
      match scanLines dc st2 ls with
      | none => none
      | some (stF, outs) => some (stF, out :: outs)

/-- What a run produces when it completes: the rewritten file content
(installed by `os.replace`) and the lines printed to stdout. -/
structure MainOutput where
  fileLines : List String
  stdout : List String
deriving DecidableEq

/-- Python's f-string rendering of a possibly-`None` version. -/
def showOpt : Option Int → String
  | none => "None"
  | some v => intRepr v

def successMsg : String := "Version and revision updated successfully."

/-- `main(fileName, major_version, minor_version, verbose)` of the
script, with the invocation date made explicit.  `none` models an
uncaught exception during the scan: the process dies before
`os.replace`, so the target file keeps its original content. -/
def mainRun (year yday : Nat) (mj mn : Option Int) (verbose : Bool)
    (lines : List String) : Option MainOutput :=
  match scanLines (dateCode year yday) ⟨mj, mn, false, 0⟩ lines with
  | none => none
  | some (st, outs) =>
    some { fileLines := outs,
           stdout := (if verbose then [successMsg] else []) ++
             [showOpt st.major_version ++ "." ++ showOpt st.minor_version ++ "." ++
              dateCode year yday ++ "." ++ intRepr st.rev_number] }

/-- Content of the target file after an invocation: the rewritten lines
when the scan completed (atomic replace), the original lines when the
run aborted first. -/
def fileAfter (year yday : Nat) (mj mn : Option Int) (verbose : Bool)
    (lines : List String) : List String :=
  match mainRun year yday mj mn verbose lines with
  | none => lines
  | some o => o.fileLines

/-- A line the scan rewrites (any of the four marker substrings). -/
def isMarkerLine (line : String) : Bool :=
  occursIn majPat line || occursIn minPat line || occursIn verPat line ||
    occursIn revPat line

/-- The branch actually taken for a line, following the `elif` order. -/
def takesMajor (line : String) : Bool := occursIn majPat line

def takesMinor (line : String) : Bool :=
  !occursIn majPat line && occursIn minPat line

def takesVersion (line : String) : Bool :=
  !occursIn majPat line && !occursIn minPat line && occursIn verPat line

def takesRevision (line : String) : Bool :=
  !occursIn majPat line && !occursIn minPat line && !occursIn verPat line &&
    occursIn revPat line

/-- A line whose branch parses its parenthesized value in the scan
state `st`: a major marker with no major version yet, a minor marker
with no minor version yet, or a revision marker on a same-day run. -/
def mustParse (st : ScanState) (line : String) : Bool :=
  (takesMajor line && st.major_version.isNone) ||
  (takesMinor line && st.minor_version.isNone) ||
  (takesRevision line && st.same_day)

/-- Image of a single non-revision line under one scan pass, read off
`processLine`'s branches for a file with at most one major and one
minor marker: a major marker is kept (no override) or rewritten with
the major template; a minor marker is kept (no override) or rewritten
with the major template (the source's line-84 slip); a version marker
becomes the fresh date-code line; anything else is copied through. -/
def lineImage (omj omn : Option Int) (dc : String) (l : String) : String :=
  if takesMajor l then
    match omj with
    | none => l
    | some v => majorTemplate v
  else if takesMinor l then
    match omn with
    | none => l
    | some v => majorTemplate v
  else if takesVersion l then versionTemplate dc
  else l

/-- The provisional `rev_number` after scanning a revision-marker-free
segment: starting from `r`, each major/minor marker without an override
overwrites it with its parsed value (the shared-variable fallback of
source lines 77/82). -/
def provisionalUpd (omj omn : Option Int) (seg : List String) (r : Int) : Int :=
  seg.foldl (fun r l =>
    if takesMajor l then
      match omj with
      | none => (parseParen l).getD r
      | some _ => r
    else if takesMinor l then
      match omn with
      | none => (parseParen l).getD r
      | some _ => r
    else r) r

/-- A line acceptable in a revision-free segment of the scan: it
contains no revision marker, and any major/minor marker that would be
parsed (its override absent) has a parseable value. -/
def segLineOK (omj omn : Option Int) (l : String) : Bool :=
  !occursIn revPat l &&
  (!(takesMajor l && omj.isNone) || (parseParen l).isSome) &&
  (!(takesMinor l && omn.isNone) || (parseParen l).isSome)

/-- `m` (a scan state's major/minor component) is in step with the
override `ov` for scanning `seg`: either it still equals the override
(and, with no override, at most one matching marker remains to parse),
or the override is absent, the value was already parsed, and no
matching marker remains. -/
def Aligned (p : String → Bool) (ov m : Option Int) (seg : List String) : Prop :=
  (m = ov ∧ (ov = none → seg.countP p ≤ 1)) ∨
  (ov = none ∧ seg.countP p = 0)

/-- Spec-side: split a character list at `'.'` separators. -/
def splitDots : List Char → List (List Char)
  | [] => [[]]
  | c :: rest =>
    if c = '.' then [] :: splitDots rest
    else
      match splitDots rest with
      | [] => [[c]]
      | g :: gs => (c :: g) :: gs

/-- Spec-side: the text of a (possibly negative) integer literal. -/
def isIntChars : List Char → Bool
  | [] => false
  | c :: rest =>
    if c = '-' then !rest.isEmpty && rest.all (fun d => d.isDigit)
    else (c :: rest).all (fun d => d.isDigit)

/-- Spec-side: the dot-separated fields match int, int, 5-digit int, int. -/
def isVersionPatternCore : List (List Char) → Bool
  | [a, b, c, d] =>
    isIntChars a && isIntChars b && (isIntChars c && c.length == 5) && isIntChars d
  | _ => false

/-- Spec-side rendering of the output contract's pattern
`\x7bint\x7d.\x7bint\x7d.\x7b5-digit int\x7d.\x7bint\x7d`. -/
def isVersionPattern (s : String) : Bool := isVersionPatternCore (splitDots s.data)

/-! ### Substring machinery -/

theorem listPre_nil (l : List Char) : listPre [] l = true := rfl

theorem subAt_nil (l : List Char) : subAt [] l = true := by
  cases l with
  | nil => rfl
  | cons c r => simp [subAt, listPre]

theorem listPre_self_append (p r : List Char) : listPre p (p ++ r) = true := by
  induction p with
  | nil => rfl
  | cons a as ih => simp [listPre, ih]

theorem listPre_mem (p l : List Char) (h : listPre p l = true) : ∀ c ∈ p, c ∈ l := by
  induction p generalizing l with
  | nil => intro c hc; cases hc
  | cons a as ih =>
    cases l with
    | nil => simp [listPre] at h
    | cons b bs =>
      simp only [listPre, Bool.and_eq_true, beq_iff_eq] at h
      obtain ⟨rfl, h2⟩ := h
      intro c hc
      rcases List.mem_cons.mp hc with rfl | hc2
      · exact List.mem_cons_self _ _
      · exact List.mem_cons_of_mem _ (ih bs h2 c hc2)

theorem listPre_append_right (p l r : List Char) (h : listPre p l = true) :
    listPre p (l ++ r) = true := by
  induction p generalizing l with
  | nil => exact listPre_nil _
  | cons a as ih =>
    cases l with
    | nil => simp [listPre] at h
    | cons b bs =>
      simp only [listPre, Bool.and_eq_true, beq_iff_eq] at h ⊢
      exact ⟨h.1, ih bs h.2⟩

theorem subAt_mem (p l : List Char) (h : subAt p l = true) : ∀ c ∈ p, c ∈ l := by
  induction l with
  | nil =>
    cases p with
    | nil => intro c hc; cases hc
    | cons a as => simp [subAt] at h
  | cons b bs ih =>
    rw [subAt, Bool.or_eq_true] at h
    intro c hc
    rcases h with h1 | h2
    · exact listPre_mem _ _ h1 c hc
    · exact List.mem_cons_of_mem _ (ih h2 c hc)

theorem subAt_cons_of (p : List Char) (b : Char) (bs : List Char)
    (h : subAt p bs = true) : subAt p (b :: bs) = true := by
  rw [subAt, Bool.or_eq_true]; exact Or.inr h

theorem subAt_append_left (p A B : List Char) (h : subAt p A = true) :
    subAt p (A ++ B) = true := by
  induction A with
  | nil =>
    cases p with
    | nil => exact subAt_nil _
    | cons a as => simp [subAt] at h
  | cons a A2 ih =>
    rw [subAt, Bool.or_eq_true] at h
    rcases h with h1 | h2
    · rw [List.cons_append, subAt, Bool.or_eq_true]
      exact Or.inl (listPre_append_right _ _ _ h1)
    · rw [List.cons_append]
      exact subAt_cons_of _ _ _ (ih h2)

theorem subAt_append_right (p A B : List Char) (h : subAt p B = true) :
    subAt p (A ++ B) = true := by
  induction A with
  | nil => exact h
  | cons a A2 ih => rw [List.cons_append]; exact subAt_cons_of _ _ _ ih

theorem subAt_self_append (p r : List Char) : subAt p (p ++ r) = true := by
  cases p with
  | nil => exact subAt_nil _
  | cons a as =>
    rw [List.cons_append, subAt, Bool.or_eq_true]
    exact Or.inl (listPre_self_append (a :: as) r)

theorem listPre_strip (p : List Char) (X B : List Char) :
    (∀ c ∈ p, c ∉ B) → listPre p (X ++ B) = true → listPre p X = true := by
  induction p generalizing X with
  | nil => intro _ _; exact listPre_nil _
  | cons a as ih =>
    intro hd h
    cases X with
    | nil =>
      exfalso
      exact hd a (List.mem_cons_self _ _)
        (listPre_mem _ _ h a (List.mem_cons_self _ _))
    | cons x X2 =>
      simp only [List.cons_append, listPre, Bool.and_eq_true] at h ⊢
      exact ⟨h.1, ih X2 (fun c hc => hd c (List.mem_cons_of_mem _ hc)) h.2⟩

theorem subAt_strip (p A B : List Char) (hne : p ≠ [])
    (hd : ∀ c ∈ p, c ∉ B) (h : subAt p (A ++ B) = true) : subAt p A = true := by
  induction A with
  | nil =>
    exfalso
    cases p with
    | nil => exact hne rfl
    | cons a as =>
      exact hd a (List.mem_cons_self _ _)
        (subAt_mem _ _ h a (List.mem_cons_self _ _))
  | cons a A2 ih =>
    rw [List.cons_append, subAt, Bool.or_eq_true] at h
    rcases h with h1 | h2
    · rw [subAt, Bool.or_eq_true]
      exact Or.inl (listPre_strip _ (a :: A2) B hd h1)
    · exact subAt_cons_of _ _ _ (ih h2)

/-! ### Decimal digits and the parse/print round trip -/

theorem digitChar_isDigit (d : Nat) (h : d < 10) : (digitChar d).isDigit = true := by
  interval_cases d <;> decide

theorem digitVal_digitChar (d : Nat) (h : d < 10) : digitVal (digitChar d) = some d := by
  interval_cases d <;> decide

theorem digitChar_not_space (d : Nat) (h : d < 10) : isPySpace (digitChar d) = false := by
  interval_cases d <;> decide

theorem digitChar_ne_dash (d : Nat) (h : d < 10) : digitChar d ≠ '-' := by
  interval_cases d <;> decide

theorem digitChar_ne_plus (d : Nat) (h : d < 10) : digitChar d ≠ '+' := by
  interval_cases d <;> decide

theorem digitChar_ne_us (d : Nat) (h : d < 10) : digitChar d ≠ '_' := by
  interval_cases d <;> decide

theorem digitChar_ne_dot (d : Nat) (h : d < 10) : digitChar d ≠ '.' := by
  interval_cases d <;> decide

theorem digitChar_ne_open (d : Nat) (h : d < 10) : digitChar d ≠ '(' := by
  interval_cases d <;> decide

theorem digitChar_ne_close (d : Nat) (h : d < 10) : digitChar d ≠ ')' := by
  interval_cases d <;> decide

theorem digitChar_ne_A (d : Nat) (h : d < 10) : digitChar d ≠ 'A' := by
  interval_cases d <;> decide

theorem digitChar_ne_M (d : Nat) (h : d < 10) : digitChar d ≠ 'M' := by
  interval_cases d <;> decide

theorem natDigitsAux_all (fuel : Nat) : ∀ n c, c ∈ natDigitsAux fuel n →
    ∃ d, d < 10 ∧ c = digitChar d := by
  induction fuel with
  | zero => intro n c hc; cases hc
  | succ f ih =>
    intro n c hc
    rw [natDigitsAux] at hc
    by_cases h10 : n < 10
    · rw [if_pos h10] at hc
      rcases List.mem_singleton.mp hc with rfl
      exact ⟨n, h10, rfl⟩
    · rw [if_neg h10] at hc
      rcases List.mem_append.mp hc with h1 | h2
      · exact ih _ _ h1
      · rcases List.mem_singleton.mp h2 with rfl
        exact ⟨n % 10, Nat.mod_lt _ (by omega), rfl⟩

theorem natDigitsAux_ne_nil (fuel n : Nat) (h : 0 < fuel) :
    natDigitsAux fuel n ≠ [] := by
  cases fuel with
  | zero => omega
  | succ f =>
    rw [natDigitsAux]
    by_cases h10 : n < 10
    · rw [if_pos h10]; simp
    · rw [if_neg h10]; simp

theorem natDigitsAux_fuel (n : Nat) : ∀ f1 f2, n < f1 → n < f2 →
    natDigitsAux f1 n = natDigitsAux f2 n := by
  induction n using Nat.strong_induction_on with
  | _ n ih =>
    intro f1 f2 h1 h2
    cases f1 with
    | zero => omega
    | succ g1 =>
      cases f2 with
      | zero => omega
      | succ g2 =>
        rw [natDigitsAux, natDigitsAux]
        by_cases h10 : n < 10
        · rw [if_pos h10, if_pos h10]
        · rw [if_neg h10, if_neg h10]
          have hlt : n / 10 < n := Nat.div_lt_self (by omega) (by omega)
          rw [ih (n / 10) hlt g1 g2 (by omega) (by omega)]

theorem parseUAux_cons_digit (acc d : Nat) (hd : d < 10) (rest : List Char) :
    parseUAux acc (digitChar d :: rest) = parseUAux (acc * 10 + d) rest := by
  conv_lhs => rw [parseUAux.eq_def]
  simp [digitChar_ne_us d hd, digitVal_digitChar d hd]

theorem parseUAux_natDigits (n : Nat) : ∀ fuel acc rest, n < fuel →
    parseUAux acc (natDigitsAux fuel n ++ rest) =
      parseUAux (acc * 10 ^ (natDigitsAux fuel n).length + n) rest := by
  induction n using Nat.strong_induction_on with
  | _ n ih =>
    intro fuel acc rest hf
    cases fuel with
    | zero => omega
    | succ f =>
      rw [natDigitsAux]
      by_cases h10 : n < 10
      · rw [if_pos h10]
        rw [List.singleton_append, parseUAux_cons_digit acc n h10]
        simp
      · rw [if_neg h10]
        have hlt : n / 10 < n := Nat.div_lt_self (by omega) (by omega)
        rw [List.append_assoc, List.singleton_append]
        rw [ih (n / 10) hlt f acc _ (by omega)]
        have hm : n % 10 < 10 := Nat.mod_lt _ (by omega)
        rw [parseUAux_cons_digit _ _ hm rest]
        have hlen : (natDigitsAux f (n / 10) ++ [digitChar (n % 10)]).length =
            (natDigitsAux f (n / 10)).length + 1 := by simp
        rw [hlen]
        congr 1
        have hpow : (10 : Nat) ^ ((natDigitsAux f (n / 10)).length + 1) =
            10 ^ (natDigitsAux f (n / 10)).length * 10 := by rw [pow_succ]
        rw [hpow]
        have hdm : 10 * (n / 10) + n % 10 = n := Nat.div_add_mod n 10
        generalize (10 : Nat) ^ (natDigitsAux f (n / 10)).length = P
        ring_nf
        omega

theorem parseDigits_eq_parseUAux (l : List Char)
    (hl : ∀ c ∈ l, ∃ d, d < 10 ∧ c = digitChar d) (hne : l ≠ []) :
    parseDigits l = parseUAux 0 l := by
  cases l with
  | nil => exact absurd rfl hne
  | cons c rest =>
    obtain ⟨d, hd, rfl⟩ := hl c (List.mem_cons_self _ _)
    rw [parseDigits, digitVal_digitChar d hd, Option.some_bind,
      parseUAux_cons_digit 0 d hd rest]
    norm_num

theorem parseDigits_natRepr (n : Nat) : parseDigits (natRepr n).data = some n := by
  have hdata : (natRepr n).data = natDigitsAux (n + 1) n := rfl
  rw [hdata]
  rw [parseDigits_eq_parseUAux _ (fun c hc => natDigitsAux_all _ _ _ hc)
    (natDigitsAux_ne_nil _ _ (by omega))]
  have := parseUAux_natDigits n (n + 1) 0 [] (by omega)
  rw [List.append_nil] at this
  rw [this, parseUAux]
  norm_num

theorem stripPy_id (l : List Char) (h : ∀ c ∈ l, isPySpace c = false) :
    stripPy l = l := by
  have hdw : ∀ m : List Char, (∀ c ∈ m, isPySpace c = false) →
      m.dropWhile isPySpace = m := by
    intro m hm
    cases m with
    | nil => rfl
    | cons c r => rw [List.dropWhile_cons, hm c (List.mem_cons_self _ _)]; simp
  rw [stripPy, hdw l h, hdw l.reverse (fun c hc => h c (List.mem_reverse.mp hc)),
    List.reverse_reverse]

theorem natRepr_chars (n : Nat) : ∀ c ∈ (natRepr n).data,
    ∃ d, d < 10 ∧ c = digitChar d := by
  intro c hc
  exact natDigitsAux_all _ _ _ hc

theorem pyInt_natRepr (n : Nat) : pyInt (natRepr n).data = some (n : Int) := by
  rw [pyInt, stripPy_id _ (fun c hc => by
    obtain ⟨d, hd, rfl⟩ := natRepr_chars n c hc
    exact digitChar_not_space d hd)]
  have hne := natDigitsAux_ne_nil (n + 1) n (by omega)
  have hdata : (natRepr n).data = natDigitsAux (n + 1) n := rfl
  rcases hlist : (natRepr n).data with _ | ⟨c, rest⟩
  · rw [hdata] at hlist; exact absurd hlist hne
  · obtain ⟨d, hd, rfl⟩ := natRepr_chars n c (by rw [hlist]; exact List.mem_cons_self _ _)
    rw [pyIntCore, if_neg (digitChar_ne_dash d hd), if_neg (digitChar_ne_plus d hd)]
    rw [← hlist, parseDigits_natRepr]
    rfl

theorem intRepr_chars (i : Int) : ∀ c ∈ (intRepr i).data,
    c = '-' ∨ ∃ d, d < 10 ∧ c = digitChar d := by
  intro c hc
  rw [intRepr] at hc
  by_cases hneg : i < 0
  · rw [if_pos hneg] at hc
    have : ("-" ++ natRepr i.natAbs).data = '-' :: (natRepr i.natAbs).data := rfl
    rw [this] at hc
    rcases List.mem_cons.mp hc with rfl | hc2
    · exact Or.inl rfl
    · exact Or.inr (natRepr_chars _ c hc2)
  · rw [if_neg hneg] at hc
    exact Or.inr (natRepr_chars _ c hc)

theorem afterFirstOpen_append (A B : List Char) :
    '(' ∉ A → afterFirstOpen (A ++ '(' :: B) = some B := by
  induction A with
  | nil => intro _; rw [List.nil_append, afterFirstOpen, if_pos rfl]
  | cons a A2 ih =>
    intro hA
    have h1 : a ≠ '(' := by
      intro heq; rw [heq] at hA; exact hA (List.mem_cons_self _ _)
    have h2 : '(' ∉ A2 := fun hm => hA (List.mem_cons_of_mem _ hm)
    rw [List.cons_append, afterFirstOpen, if_neg h1]
    exact ih h2

theorem upToStop_append (l rest : List Char) :
    (∀ c ∈ l, c ≠ '(' ∧ c ≠ ')') → upToStop (l ++ ')' :: rest) = l := by
  induction l with
  | nil => intro _; rw [List.nil_append, upToStop, if_pos (Or.inr rfl)]
  | cons c l2 ih =>
    intro h
    have hc := h c (List.mem_cons_self _ _)
    rw [List.cons_append, upToStop,
      if_neg (by rintro (h1 | h1); exacts [hc.1 h1, hc.2 h1])]
    rw [ih (fun c2 hc2 => h c2 (List.mem_cons_of_mem _ hc2))]

theorem pyInt_intRepr (i : Int) : pyInt (intRepr i).data = some i := by
  by_cases hneg : i < 0
  · have hdata : (intRepr i).data = '-' :: (natRepr i.natAbs).data := by
      rw [intRepr, if_pos hneg]; rfl
    rw [hdata, pyInt, stripPy_id _ (fun c hc => by
      rcases List.mem_cons.mp hc with rfl | hc2
      · decide
      · obtain ⟨d, hd, rfl⟩ := natRepr_chars _ c hc2
        exact digitChar_not_space d hd)]
    rw [pyIntCore, if_pos rfl, parseDigits_natRepr]
    have hcast : -(i.natAbs : Int) = i := by omega
    simp [hcast, abs_of_neg hneg]
  · have hdata : (intRepr i).data = (natRepr i.natAbs).data := by
      rw [intRepr, if_neg hneg]
    rw [hdata, pyInt_natRepr]
    have hcast : (i.natAbs : Int) = i := by omega
    rw [hcast]

/-! ### Shape of the rewritten marker lines -/

theorem occursIn_def (pat line : String) :
    occursIn pat line = subAt pat.data line.data := rfl

theorem occursIn_false_of_char (pat line : String) (c : Char)
    (hc : c ∈ pat.data) (hline : c ∉ line.data) : occursIn pat line = false := by
  by_contra h
  rw [Bool.not_eq_false, occursIn_def] at h
  exact hline (subAt_mem _ _ h c hc)

theorem dateCode_chars (y d : Nat) : ∀ c ∈ (dateCode y d).data,
    ∃ k, k < 10 ∧ c = digitChar k := by
  intro c hc
  have hdata : (dateCode y d).data = (natRepr y).data.drop 2 ++ pad3 (natRepr d).data := rfl
  rw [hdata] at hc
  rcases List.mem_append.mp hc with h1 | h2
  · exact natRepr_chars y c (List.drop_subset _ _ h1)
  · rw [pad3] at h2
    rcases List.mem_append.mp h2 with h3 | h4
    · exact ⟨0, by omega, by rw [List.eq_of_mem_replicate h3]; decide⟩
    · exact natRepr_chars d c h4

theorem verTemplate_data (dc : String) : (versionTemplate dc).data =
    "    #define FW_VERSION_VERSION ".data ++ ('(' :: (dc.data ++ [')'])) := by
  have h0 : (versionTemplate dc).data =
      ("    #define FW_VERSION_VERSION (".data ++ dc.data) ++ [')'] := rfl
  rw [h0, (by decide : ("    #define FW_VERSION_VERSION (" : String).data =
      "    #define FW_VERSION_VERSION ".data ++ ['('])]
  simp [List.append_assoc]

theorem revTemplate_data (i : Int) : (revisionTemplate i).data =
    "    #define FW_REVISION_VERSION ".data ++ ('(' :: ((intRepr i).data ++ [')'])) := by
  have h0 : (revisionTemplate i).data =
      ("    #define FW_REVISION_VERSION (".data ++ (intRepr i).data) ++ [')'] := rfl
  rw [h0, (by decide : ("    #define FW_REVISION_VERSION (" : String).data =
      "    #define FW_REVISION_VERSION ".data ++ ['('])]
  simp [List.append_assoc]

theorem majTemplate_data (i : Int) : (majorTemplate i).data =
    "    #define FW_MAJOR_VERSION ".data ++ ('(' :: ((intRepr i).data ++ [')'])) := by
  have h0 : (majorTemplate i).data =
      ("    #define FW_MAJOR_VERSION (".data ++ (intRepr i).data) ++ [')'] := rfl
  rw [h0, (by decide : ("    #define FW_MAJOR_VERSION (" : String).data =
      "    #define FW_MAJOR_VERSION ".data ++ ['('])]
  simp [List.append_assoc]

theorem majPat_not_in_verT (y d : Nat) :
    occursIn majPat (versionTemplate (dateCode y d)) = false := by
  apply occursIn_false_of_char _ _ 'A' (by decide)
  intro hc
  rw [verTemplate_data] at hc
  rcases List.mem_append.mp hc with h1 | h2
  · exact (by decide : ('A' : Char) ∉ ("    #define FW_VERSION_VERSION " : String).data) h1
  · rcases List.mem_cons.mp h2 with h3 | h4
    · exact (by decide : ('A' : Char) ≠ '(') h3
    · rcases List.mem_append.mp h4 with h5 | h6
      · obtain ⟨k, hk, hke⟩ := dateCode_chars y d 'A' h5
        exact digitChar_ne_A k hk hke.symm
      · exact (by decide : ('A' : Char) ∉ [')']) h6

theorem minPat_not_in_verT (y d : Nat) :
    occursIn minPat (versionTemplate (dateCode y d)) = false := by
  apply occursIn_false_of_char _ _ 'M' (by decide)
  intro hc
  rw [verTemplate_data] at hc
  rcases List.mem_append.mp hc with h1 | h2
  · exact (by decide : ('M' : Char) ∉ ("    #define FW_VERSION_VERSION " : String).data) h1
  · rcases List.mem_cons.mp h2 with h3 | h4
    · exact (by decide : ('M' : Char) ≠ '(') h3
    · rcases List.mem_append.mp h4 with h5 | h6
      · obtain ⟨k, hk, hke⟩ := dateCode_chars y d 'M' h5
        exact digitChar_ne_M k hk hke.symm
      · exact (by decide : ('M' : Char) ∉ [')']) h6

theorem verPat_in_verT (dc : String) : occursIn verPat (versionTemplate dc) = true := by
  rw [occursIn_def]
  have h0 : (versionTemplate dc).data =
      "    ".data ++ (verPat.data ++ (' ' :: ('(' :: (dc.data ++ [')'])))) := by
    rw [verTemplate_data,
      (by decide : ("    #define FW_VERSION_VERSION " : String).data =
        "    ".data ++ (verPat.data ++ [' ']))]
    simp [List.append_assoc]
  rw [h0]
  exact subAt_append_right _ _ _ (subAt_self_append _ _)

theorem dc_in_verT (dc : String) : occursIn dc (versionTemplate dc) = true := by
  rw [occursIn_def]
  have h0 : (versionTemplate dc).data =
      "    #define FW_VERSION_VERSION (".data ++ (dc.data ++ [')']) := by
    have h1 : (versionTemplate dc).data =
        ("    #define FW_VERSION_VERSION (".data ++ dc.data) ++ [')'] := rfl
    rw [h1, List.append_assoc]
  rw [h0]
  exact subAt_append_right _ _ _ (subAt_self_append _ _)

theorem majPat_not_in_revT (i : Int) :
    occursIn majPat (revisionTemplate i) = false := by
  apply occursIn_false_of_char _ _ 'A' (by decide)
  intro hc
  rw [revTemplate_data] at hc
  rcases List.mem_append.mp hc with h1 | h2
  · exact (by decide : ('A' : Char) ∉ ("    #define FW_REVISION_VERSION " : String).data) h1
  · rcases List.mem_cons.mp h2 with h3 | h4
    · exact (by decide : ('A' : Char) ≠ '(') h3
    · rcases List.mem_append.mp h4 with h5 | h6
      · rcases intRepr_chars i 'A' h5 with h7 | ⟨k, hk, hke⟩
        · exact (by decide : ('A' : Char) ≠ '-') h7
        · exact digitChar_ne_A k hk hke.symm
      · exact (by decide : ('A' : Char) ∉ [')']) h6

theorem minPat_not_in_revT (i : Int) :
    occursIn minPat (revisionTemplate i) = false := by
  apply occursIn_false_of_char _ _ 'M' (by decide)
  intro hc
  rw [revTemplate_data] at hc
  rcases List.mem_append.mp hc with h1 | h2
  · exact (by decide : ('M' : Char) ∉ ("    #define FW_REVISION_VERSION " : String).data) h1
  · rcases List.mem_cons.mp h2 with h3 | h4
    · exact (by decide : ('M' : Char) ≠ '(') h3
    · rcases List.mem_append.mp h4 with h5 | h6
      · rcases intRepr_chars i 'M' h5 with h7 | ⟨k, hk, hke⟩
        · exact (by decide : ('M' : Char) ≠ '-') h7
        · exact digitChar_ne_M k hk hke.symm
      · exact (by decide : ('M' : Char) ∉ [')']) h6

theorem verPat_not_in_revT (i : Int) :
    occursIn verPat (revisionTemplate i) = false := by
  by_contra h
  rw [Bool.not_eq_false, occursIn_def] at h
  have h0 : (revisionTemplate i).data =
      "    #define FW_REVISION_VERSION (".data ++ ((intRepr i).data ++ [')']) := by
    have h1 : (revisionTemplate i).data =
        ("    #define FW_REVISION_VERSION (".data ++ (intRepr i).data) ++ [')'] := rfl
    rw [h1, List.append_assoc]
  rw [h0] at h
  have h2 : subAt verPat.data ("    #define FW_REVISION_VERSION (" : String).data = true := by
    apply subAt_strip _ _ ((intRepr i).data ++ [')']) (by decide) _ h
    intro c hc hcB
    rcases List.mem_append.mp hcB with hB1 | hB2
    · rcases intRepr_chars i c hB1 with rfl | ⟨k, hk, rfl⟩
      · exact (by decide : ('-' : Char) ∉ verPat.data) hc
      · have hno : ∀ c2 ∈ verPat.data, c2.isDigit = false := by decide
        have hdig := hno _ hc
        rw [digitChar_isDigit k hk] at hdig
        exact Bool.noConfusion hdig
    · rcases List.mem_singleton.mp hB2 with rfl
      exact (by decide : (')' : Char) ∉ verPat.data) hc
  have h3 : subAt verPat.data ("    #define FW_REVISION_VERSION (" : String).data = false := by
    decide
  rw [h3] at h2
  exact Bool.noConfusion h2

theorem revPat_in_revT (i : Int) : occursIn revPat (revisionTemplate i) = true := by
  rw [occursIn_def]
  have h0 : (revisionTemplate i).data =
      "    ".data ++ (revPat.data ++ (' ' :: ('(' :: ((intRepr i).data ++ [')'])))) := by
    rw [revTemplate_data,
      (by decide : ("    #define FW_REVISION_VERSION " : String).data =
        "    ".data ++ (revPat.data ++ [' ']))]
    simp [List.append_assoc]
  rw [h0]
  exact subAt_append_right _ _ _ (subAt_self_append _ _)

theorem parseParen_revT (i : Int) : parseParen (revisionTemplate i) = some i := by
  rw [parseParen, revTemplate_data, afterFirstOpen_append _ _ (by decide),
    Option.some_bind]
  rw [(rfl : (intRepr i).data ++ [')'] = (intRepr i).data ++ ')' :: []),
    upToStop_append _ _ (fun c hc => by
      rcases intRepr_chars i c hc with rfl | ⟨k, hk, rfl⟩
      · exact ⟨by decide, by decide⟩
      · exact ⟨digitChar_ne_open k hk, digitChar_ne_close k hk⟩)]
  exact pyInt_intRepr i

theorem parenText_verT (dc : String)
    (hdc : ∀ c ∈ dc.data, c ≠ '(' ∧ c ≠ ')') :
    parenText (versionTemplate dc) = some dc := by
  rw [parenText, verTemplate_data, afterFirstOpen_append _ _ (by decide)]
  rw [(rfl : dc.data ++ [')'] = dc.data ++ ')' :: []), Option.map_some']
  rw [upToStop_append _ _ hdc]

/-! ### Stepping the scan -/

theorem processLine_nonmarker (dc : String) (st : ScanState) (l : String)
    (h : isMarkerLine l = false) : processLine dc st l = some (st, l) := by
  rw [isMarkerLine] at h
  simp only [Bool.or_eq_false_iff] at h
  obtain ⟨⟨⟨h1, h2⟩, h3⟩, h4⟩ := h
  simp [processLine, h1, h2, h3, h4]

theorem processLine_major_parse (dc : String) (st : ScanState) (l : String) (v : Int)
    (h : occursIn majPat l = true) (hm : st.major_version = none)
    (hp : parseParen l = some v) :
    processLine dc st l =
      some ({ st with major_version := some v, rev_number := v }, l) := by
  simp [processLine, h, hm, hp]

theorem processLine_major_tmpl (dc : String) (st : ScanState) (l : String) (mv : Int)
    (h : occursIn majPat l = true) (hm : st.major_version = some mv) :
    processLine dc st l = some (st, majorTemplate mv) := by
  simp [processLine, h, hm]

theorem processLine_minor_parse (dc : String) (st : ScanState) (l : String) (v : Int)
    (h : takesMinor l = true) (hm : st.minor_version = none)
    (hp : parseParen l = some v) :
    processLine dc st l =
      some ({ st with minor_version := some v, rev_number := v }, l) := by
  rw [takesMinor, Bool.and_eq_true, Bool.not_eq_true'] at h
  simp [processLine, h.1, h.2, hm, hp]

theorem processLine_minor_tmpl (dc : String) (st : ScanState) (l : String) (mv : Int)
    (h : takesMinor l = true) (hm : st.minor_version = some mv) :
    processLine dc st l = some (st, majorTemplate mv) := by
  rw [takesMinor, Bool.and_eq_true, Bool.not_eq_true'] at h
  simp [processLine, h.1, h.2, hm]

theorem processLine_version (dc : String) (st : ScanState) (l : String)
    (h : takesVersion l = true) :
    processLine dc st l =
      some ({ st with same_day := st.same_day || occursIn dc l },
        versionTemplate dc) := by
  rw [takesVersion] at h
  simp only [Bool.and_eq_true, Bool.not_eq_true'] at h
  obtain ⟨⟨h1, h2⟩, h3⟩ := h
  simp [processLine, h1, h2, h3]

theorem processLine_revision_stale (dc : String) (st : ScanState) (l : String)
    (h : takesRevision l = true) (hsd : st.same_day = false) :
    processLine dc st l = some (st, revisionTemplate st.rev_number) := by
  rw [takesRevision] at h
  simp only [Bool.and_eq_true, Bool.not_eq_true'] at h
  obtain ⟨⟨⟨h1, h2⟩, h3⟩, h4⟩ := h
  simp [processLine, h1, h2, h3, h4, hsd]

theorem processLine_revision_bump (dc : String) (st : ScanState) (l : String) (v : Int)
    (h : takesRevision l = true) (hsd : st.same_day = true)
    (hp : parseParen l = some v) :
    processLine dc st l =
      some ({ st with rev_number := v + 1 }, revisionTemplate (v + 1)) := by
  rw [takesRevision] at h
  simp only [Bool.and_eq_true, Bool.not_eq_true'] at h
  obtain ⟨⟨⟨h1, h2⟩, h3⟩, h4⟩ := h
  simp [processLine, h1, h2, h3, h4, hsd, hp]

theorem processLine_none (dc : String) (st : ScanState) (l : String)
    (h : mustParse st l = true) (hp : parseParen l = none) :
    processLine dc st l = none := by
  rw [mustParse] at h
  simp only [Bool.or_eq_true, Bool.and_eq_true] at h
  rcases h with (⟨h1, h2⟩ | ⟨h1, h2⟩) | ⟨h1, h2⟩
  · rw [takesMajor] at h1
    rw [Option.isNone_iff_eq_none] at h2
    simp [processLine, h1, h2, hp]
  · rw [takesMinor, Bool.and_eq_true, Bool.not_eq_true'] at h1
    rw [Option.isNone_iff_eq_none] at h2
    simp [processLine, h1.1, h1.2, h2, hp]
  · rw [takesRevision] at h1
    simp only [Bool.and_eq_true, Bool.not_eq_true'] at h1
    obtain ⟨⟨⟨g1, g2⟩, g3⟩, g4⟩ := h1
    simp [processLine, g1, g2, g3, g4, h2, hp]

theorem processLine_same_day (dc : String) (st : ScanState) (l : String)
    (st2 : ScanState) (out : String)
    (h : processLine dc st l = some (st2, out))
    (hv : occursIn verPat l = false) : st2.same_day = st.same_day := by
  rw [processLine] at h
  by_cases h1 : occursIn majPat l = true
  · rw [if_pos h1] at h
    cases hm : st.major_version with
    | none =>
      rw [hm] at h
      cases hp : parseParen l with
      | none => rw [hp] at h; simp at h
      | some v =>
        rw [hp] at h
        simp only [Option.map_some', Option.some.injEq, Prod.mk.injEq] at h
        rw [← h.1]
    | some mv =>
      rw [hm] at h
      simp only [Option.some.injEq, Prod.mk.injEq] at h
      rw [← h.1]
  · rw [if_neg h1] at h
    by_cases h2 : occursIn minPat l = true
    · rw [if_pos h2] at h
      cases hm : st.minor_version with
      | none =>
        rw [hm] at h
        cases hp : parseParen l with
        | none => rw [hp] at h; simp at h
        | some v =>
          rw [hp] at h
          simp only [Option.map_some', Option.some.injEq, Prod.mk.injEq] at h
          rw [← h.1]
      | some mv =>
        rw [hm] at h
        simp only [Option.some.injEq, Prod.mk.injEq] at h
        rw [← h.1]
    · rw [if_neg h2] at h
      rw [if_neg (by rw [hv]; exact Bool.noConfusion)] at h
      by_cases h4 : occursIn revPat l = true
      · rw [if_pos h4] at h
        cases hsd : st.same_day with
        | false =>
          rw [hsd] at h
          rw [if_neg (by exact Bool.noConfusion)] at h
          simp only [Option.some.injEq, Prod.mk.injEq] at h
          rw [← h.1, hsd]
        | true =>
          rw [hsd] at h
          rw [if_pos rfl] at h
          cases hp : parseParen l with
          | none => rw [hp] at h; simp at h
          | some v =>
            rw [hp] at h
            simp only [Option.map_some', Option.some.injEq, Prod.mk.injEq] at h
            rw [← h.1]
      · rw [if_neg h4] at h
        simp only [Option.some.injEq, Prod.mk.injEq] at h
        rw [← h.1]

theorem scanLines_nil (dc : String) (st : ScanState) :
    scanLines dc st [] = some (st, []) := rfl

theorem scanLines_cons_some (dc : String) (st : ScanState) (l : String)
    (ls : List String) (st2 : ScanState) (out : String)
    (h : processLine dc st l = some (st2, out)) :
    scanLines dc st (l :: ls) =
      match scanLines dc st2 ls with
      | none => none
      | some (stF, outs) => some (stF, out :: outs) := by
  rw [scanLines, h]

theorem scanLines_length (dc : String) : ∀ (lines : List String) (st stF : ScanState)
    (outs : List String), scanLines dc st lines = some (stF, outs) →
    outs.length = lines.length := by
  intro lines
  induction lines with
  | nil =>
    intro st stF outs h
    rw [scanLines_nil] at h
    simp only [Option.some.injEq, Prod.mk.injEq] at h
    rw [← h.2]
  | cons l ls ih =>
    intro st stF outs h
    cases hp : processLine dc st l with
    | none => rw [scanLines, hp] at h; exact Option.noConfusion h
    | some p =>
      obtain ⟨st2, out⟩ := p
      rw [scanLines_cons_some dc st l ls st2 out hp] at h
      cases hs : scanLines dc st2 ls with
      | none => rw [hs] at h; exact Option.noConfusion h
      | some q =>
        obtain ⟨stF2, outs2⟩ := q
        rw [hs] at h
        simp only [Option.some.injEq, Prod.mk.injEq] at h
        rw [← h.2]
        simp [ih st2 stF2 outs2 hs]

theorem scanLines_get_nonmarker (dc : String) : ∀ (lines : List String)
    (st stF : ScanState) (outs : List String),
    scanLines dc st lines = some (stF, outs) →
    ∀ i (hi : i < lines.length) (hi2 : i < outs.length),
      isMarkerLine (lines.get ⟨i, hi⟩) = false →
      outs.get ⟨i, hi2⟩ = lines.get ⟨i, hi⟩ := by
  intro lines
  induction lines with
  | nil => intro st stF outs h i hi; exact absurd hi (by simp)
  | cons l ls ih =>
    intro st stF outs h i hi hi2 hm
    cases hp : processLine dc st l with
    | none => rw [scanLines, hp] at h; exact Option.noConfusion h
    | some p =>
      obtain ⟨st2, out⟩ := p
      rw [scanLines_cons_some dc st l ls st2 out hp] at h
      cases hs : scanLines dc st2 ls with
      | none => rw [hs] at h; exact Option.noConfusion h
      | some q =>
        obtain ⟨stF2, outs2⟩ := q
        rw [hs] at h
        simp only [Option.some.injEq, Prod.mk.injEq] at h
        obtain ⟨he1, he2⟩ := h
        subst he2
        cases i with
        | zero =>
          simp only [List.get] at hm ⊢
          rw [processLine_nonmarker dc st l hm] at hp
          simp only [Option.some.injEq, Prod.mk.injEq] at hp
          exact hp.2.symm
        | succ j =>
          simp only [List.get] at hm ⊢
          exact ih st2 stF2 outs2 hs j (by simpa using hi) (by simpa using hi2) hm

theorem scanLines_get_version (dc : String) : ∀ (lines : List String)
    (st stF : ScanState) (outs : List String),
    scanLines dc st lines = some (stF, outs) →
    ∀ i (hi : i < lines.length) (hi2 : i < outs.length),
      takesVersion (lines.get ⟨i, hi⟩) = true →
      outs.get ⟨i, hi2⟩ = versionTemplate dc := by
  intro lines
  induction lines with
  | nil => intro st stF outs h i hi; exact absurd hi (by simp)
  | cons l ls ih =>
    intro st stF outs h i hi hi2 hm
    cases hp : processLine dc st l with
    | none => rw [scanLines, hp] at h; exact Option.noConfusion h
    | some p =>
      obtain ⟨st2, out⟩ := p
      rw [scanLines_cons_some dc st l ls st2 out hp] at h
      cases hs : scanLines dc st2 ls with
      | none => rw [hs] at h; exact Option.noConfusion h
      | some q =>
        obtain ⟨stF2, outs2⟩ := q
        rw [hs] at h
        simp only [Option.some.injEq, Prod.mk.injEq] at h
        obtain ⟨he1, he2⟩ := h
        subst he2
        cases i with
        | zero =>
          simp only [List.get] at hm ⊢
          rw [processLine_version dc st l hm] at hp
          simp only [Option.some.injEq, Prod.mk.injEq] at hp
          exact hp.2.symm
        | succ j =>
          simp only [List.get] at hm ⊢
          exact ih st2 stF2 outs2 hs j (by simpa using hi) (by simpa using hi2) hm

theorem scanLines_same_day (dc : String) : ∀ (lines : List String)
    (st stF : ScanState) (outs : List String),
    scanLines dc st lines = some (stF, outs) →
    (∀ p ∈ lines, occursIn verPat p = false) →
    stF.same_day = st.same_day := by
  intro lines
  induction lines with
  | nil =>
    intro st stF outs h _
    rw [scanLines_nil] at h
    simp only [Option.some.injEq, Prod.mk.injEq] at h
    rw [← h.1]
  | cons l ls ih =>
    intro st stF outs h hv
    cases hp : processLine dc st l with
    | none => rw [scanLines, hp] at h; exact Option.noConfusion h
    | some p =>
      obtain ⟨st2, out⟩ := p
      rw [scanLines_cons_some dc st l ls st2 out hp] at h
      cases hs : scanLines dc st2 ls with
      | none => rw [hs] at h; exact Option.noConfusion h
      | some q =>
        obtain ⟨stF2, outs2⟩ := q
        rw [hs] at h
        simp only [Option.some.injEq, Prod.mk.injEq] at h
        rw [← h.1]
        rw [ih st2 stF2 outs2 hs (fun p hp2 => hv p (List.mem_cons_of_mem _ hp2))]
        exact processLine_same_day dc st l st2 out hp
          (hv l (List.mem_cons_self _ _))

theorem scanLines_append (dc : String) : ∀ (pre rest : List String) (st : ScanState),
    scanLines dc st (pre ++ rest) =
      match scanLines dc st pre with
      | none => none
      | some (st2, outs) =>
        match scanLines dc st2 rest with
        | none => none
        | some (st3, outs2) => some (st3, outs ++ outs2) := by
  intro pre
  induction pre with
  | nil =>
    intro rest st
    rw [List.nil_append, scanLines_nil]
    cases hs : scanLines dc st rest with
    | none => simp [hs]
    | some q => obtain ⟨st3, outs2⟩ := q; simp [hs]
  | cons l pre2 ih =>
    intro rest st
    rw [List.cons_append]
    cases hp : processLine dc st l with
    | none => rw [scanLines, hp, scanLines, hp]
    | some p =>
      obtain ⟨st2, out⟩ := p
      rw [scanLines_cons_some dc st l (pre2 ++ rest) st2 out hp, ih rest st2,
        scanLines_cons_some dc st l pre2 st2 out hp]
      cases hs : scanLines dc st2 pre2 with
      | none => simp
      | some q =>
        obtain ⟨st3, outs⟩ := q
        cases hs2 : scanLines dc st3 rest with
        | none => dsimp only; rw [hs2]
        | some r => obtain ⟨st4, outs2⟩ := r; dsimp only; rw [hs2]; simp

theorem mainRun_eq_some (year yday : Nat) (mj mn : Option Int) (verbose : Bool)
    (lines : List String) (st : ScanState) (outs : List String)
    (h : scanLines (dateCode year yday) ⟨mj, mn, false, 0⟩ lines = some (st, outs)) :
    mainRun year yday mj mn verbose lines =
      some { fileLines := outs,
             stdout := (if verbose then [successMsg] else []) ++
               [showOpt st.major_version ++ "." ++ showOpt st.minor_version ++ "." ++
                dateCode year yday ++ "." ++ intRepr st.rev_number] } := by
  rw [mainRun, h]

theorem mainRun_eq_none (year yday : Nat) (mj mn : Option Int) (verbose : Bool)
    (lines : List String)
    (h : scanLines (dateCode year yday) ⟨mj, mn, false, 0⟩ lines = none) :
    mainRun year yday mj mn verbose lines = none := by
  rw [mainRun, h]

/-! ### Length and decimal-shape facts for the date code -/

theorem string_data_append (s t : String) : (s ++ t).data = s.data ++ t.data := rfl

theorem natRepr_four (n : Nat) (h1 : 1000 ≤ n) (h2 : n ≤ 9999) :
    (natRepr n).data = [digitChar (n / 1000), digitChar (n / 100 % 10),
      digitChar (n / 10 % 10), digitChar (n % 10)] := by
  have e0 : (natRepr n).data = natDigitsAux (n + 1) n := rfl
  rw [e0, natDigitsAux, if_neg (by omega)]
  rw [natDigitsAux_fuel (n / 10) n (n / 10 + 1) (by omega) (by omega)]
  rw [natDigitsAux, if_neg (by omega)]
  rw [(by omega : n / 10 / 10 = n / 100)]
  rw [natDigitsAux_fuel (n / 100) (n / 10) (n / 100 + 1) (by omega) (by omega)]
  rw [natDigitsAux, if_neg (by omega)]
  rw [(by omega : n / 100 / 10 = n / 1000)]
  rw [natDigitsAux_fuel (n / 1000) (n / 100) (n / 1000 + 1) (by omega) (by omega)]
  rw [natDigitsAux, if_pos (by omega)]
  simp

theorem natDigitsAux_len_le : ∀ (k n fuel : Nat), n < fuel → n < 10 ^ k → 1 ≤ k →
    (natDigitsAux fuel n).length ≤ k := by
  intro k
  induction k with
  | zero => intro n fuel _ _ hk; omega
  | succ k2 ih =>
    intro n fuel hf hlt _
    cases fuel with
    | zero => omega
    | succ f =>
      rw [natDigitsAux]
      by_cases h10 : n < 10
      · rw [if_pos h10]; simp
      · rw [if_neg h10]
        rw [List.length_append]
        have hpow : (10 : Nat) ^ (k2 + 1) = 10 ^ k2 * 10 := pow_succ 10 k2
        rw [hpow] at hlt
        have hk2 : 1 ≤ k2 := by
          rcases Nat.eq_zero_or_pos k2 with rfl | hpos
          · simp at hlt; omega
          · omega
        have hdiv : n / 10 < 10 ^ k2 := (Nat.div_lt_iff_lt_mul (by omega)).mpr hlt
        have := ih (n / 10) f (by omega) hdiv hk2
        simp
        omega

theorem pad3_length (yday : Nat) (h : yday ≤ 999) :
    (pad3 (natRepr yday).data).length = 3 := by
  have h3 : (10 : Nat) ^ 3 = 1000 := by norm_num
  have hlen : (natRepr yday).data.length ≤ 3 :=
    natDigitsAux_len_le 3 yday (yday + 1) (by omega) (by omega) (by omega)
  rw [pad3, List.length_append, List.length_replicate]
  omega

theorem dateCode_data (year yday : Nat) (h1 : 1000 ≤ year) (h2 : year ≤ 9999) :
    (dateCode year yday).data =
      [digitChar (year % 100 / 10), digitChar (year % 100 % 10)] ++
        pad3 (natRepr yday).data := by
  have e0 : (dateCode year yday).data =
      (natRepr year).data.drop 2 ++ pad3 (natRepr yday).data := rfl
  rw [e0, natRepr_four year h1 h2]
  rw [(by omega : year % 100 / 10 = year / 10 % 10),
    (by omega : year % 100 % 10 = year % 10)]
  rfl

theorem dateCode_length (year yday : Nat) (h1 : 1000 ≤ year) (h2 : year ≤ 9999)
    (hd : yday ≤ 999) : (dateCode year yday).data.length = 5 := by
  rw [dateCode_data year yday h1 h2, List.length_append, pad3_length yday hd]
  rfl

/-! ### The printed version pattern -/

theorem splitDots_append_nodot : ∀ (a l : List Char) (g : List Char)
    (gs : List (List Char)), (∀ c ∈ a, c ≠ '.') → splitDots l = g :: gs →
    splitDots (a ++ l) = (a ++ g) :: gs := by
  intro a
  induction a with
  | nil => intro l g gs _ h; simpa using h
  | cons c a2 ih =>
    intro l g gs hnd h
    rw [List.cons_append, splitDots, if_neg (hnd c (List.mem_cons_self _ _))]
    rw [ih l g gs (fun x hx => hnd x (List.mem_cons_of_mem _ hx)) h]
    rfl

theorem splitDots_single (a : List Char) (h : ∀ c ∈ a, c ≠ '.') :
    splitDots a = [a] := by
  have h0 : splitDots ([] : List Char) = [] :: [] := rfl
  have := splitDots_append_nodot a [] [] [] h h0
  simpa using this

theorem splitDots_dot (l : List Char) : splitDots ('.' :: l) = [] :: splitDots l := by
  rw [splitDots, if_pos rfl]

theorem splitDots_version (A B C D : List Char)
    (hA : ∀ c ∈ A, c ≠ '.') (hB : ∀ c ∈ B, c ≠ '.')
    (hC : ∀ c ∈ C, c ≠ '.') (hD : ∀ c ∈ D, c ≠ '.') :
    splitDots (A ++ '.' :: (B ++ '.' :: (C ++ '.' :: D))) = [A, B, C, D] := by
  have h1 : splitDots ('.' :: D) = [] :: [D] := by
    rw [splitDots_dot, splitDots_single D hD]
  have h2 : splitDots (C ++ '.' :: D) = [C, D] := by
    have := splitDots_append_nodot C ('.' :: D) [] [D] hC h1
    simpa using this
  have h3 : splitDots ('.' :: (C ++ '.' :: D)) = [] :: [C, D] := by
    rw [splitDots_dot, h2]
  have h4 : splitDots (B ++ '.' :: (C ++ '.' :: D)) = [B, C, D] := by
    have := splitDots_append_nodot B ('.' :: (C ++ '.' :: D)) [] [C, D] hB h3
    simpa using this
  have h5 : splitDots ('.' :: (B ++ '.' :: (C ++ '.' :: D))) = [] :: [B, C, D] := by
    rw [splitDots_dot, h4]
  have := splitDots_append_nodot A ('.' :: (B ++ '.' :: (C ++ '.' :: D))) []
    [B, C, D] hA h5
  simpa using this

theorem intRepr_no_dot (i : Int) : ∀ c ∈ (intRepr i).data, c ≠ '.' := by
  intro c hc
  rcases intRepr_chars i c hc with rfl | ⟨k, hk, rfl⟩
  · decide
  · exact digitChar_ne_dot k hk

theorem isIntChars_digits (l : List Char) (hne : l ≠ [])
    (h : ∀ c ∈ l, ∃ k, k < 10 ∧ c = digitChar k) : isIntChars l = true := by
  cases l with
  | nil => exact absurd rfl hne
  | cons c rest =>
    obtain ⟨d, hd, rfl⟩ := h c (List.mem_cons_self _ _)
    rw [isIntChars, if_neg (digitChar_ne_dash d hd)]
    rw [List.all_eq_true]
    intro c hc
    obtain ⟨k, hk, rfl⟩ := h c hc
    exact digitChar_isDigit k hk

theorem isIntChars_intRepr (i : Int) : isIntChars (intRepr i).data = true := by
  by_cases hneg : i < 0
  · have hdata : (intRepr i).data = '-' :: (natRepr i.natAbs).data := by
      rw [intRepr, if_pos hneg]; rfl
    rw [hdata, isIntChars, if_pos rfl]
    have hne : (natRepr i.natAbs).data ≠ [] := natDigitsAux_ne_nil _ _ (by omega)
    have hall : (natRepr i.natAbs).data.all (fun d => d.isDigit) = true := by
      rw [List.all_eq_true]
      intro c hc
      obtain ⟨d, hd, rfl⟩ := natRepr_chars _ c hc
      exact digitChar_isDigit d hd
    simp [hall]
    exact hne
  · have hdata : (intRepr i).data = (natRepr i.natAbs).data := by
      rw [intRepr, if_neg hneg]
    rw [hdata]
    exact isIntChars_digits _ (natDigitsAux_ne_nil _ _ (by omega))
      (natRepr_chars _)

theorem isVersionPattern_line (M N R : Int) (dc : String)
    (hlen : dc.data.length = 5)
    (hdc : ∀ c ∈ dc.data, ∃ k, k < 10 ∧ c = digitChar k) :
    isVersionPattern
      (intRepr M ++ "." ++ intRepr N ++ "." ++ dc ++ "." ++ intRepr R) = true := by
  have hdcnd : ∀ c ∈ dc.data, c ≠ '.' := by
    intro c hc
    obtain ⟨k, hk, rfl⟩ := hdc c hc
    exact digitChar_ne_dot k hk
  have hdot : ("." : String).data = ['.'] := rfl
  have hdata : (intRepr M ++ "." ++ intRepr N ++ "." ++ dc ++ "." ++ intRepr R).data =
      (intRepr M).data ++ '.' :: ((intRepr N).data ++ '.' :: (dc.data ++ '.' ::
        (intRepr R).data)) := by
    simp [string_data_append, hdot, List.append_assoc]
  rw [isVersionPattern, hdata,
    splitDots_version _ _ _ _ (intRepr_no_dot M) (intRepr_no_dot N) hdcnd
      (intRepr_no_dot R)]
  rw [isVersionPatternCore]
  have hdcne : dc.data ≠ [] := by
    intro hemp; rw [hemp] at hlen; simp at hlen
  simp [isIntChars_intRepr, isIntChars_digits dc.data hdcne hdc, hlen]

theorem isVersionPattern_successMsg : isVersionPattern successMsg = false := by
  decide

/-! ### Scanning a revision-free segment of an arbitrary file -/

theorem countP_cons_true (p : String → Bool) (l : String) (seg : List String)
    (hpl : p l = true) : (l :: seg).countP p = seg.countP p + 1 := by
  rw [List.countP_cons, if_pos hpl]

theorem countP_cons_false (p : String → Bool) (l : String) (seg : List String)
    (hpl : p l = false) : (l :: seg).countP p = seg.countP p := by
  rw [List.countP_cons, if_neg (by rw [hpl]; exact Bool.noConfusion)]
  rfl

theorem aligned_tail (p : String → Bool) (ov m : Option Int) (l : String)
    (seg : List String) (hpl : p l = false) (h : Aligned p ov m (l :: seg)) :
    Aligned p ov m seg := by
  rw [Aligned] at h ⊢
  rw [countP_cons_false p l seg hpl] at h
  exact h

theorem lineImage_major_some (v : Int) (omn : Option Int) (dc : String)
    (l : String) (h : takesMajor l = true) :
    lineImage (some v) omn dc l = majorTemplate v := by
  rw [lineImage.eq_def, if_pos h]

theorem lineImage_major_none (omn : Option Int) (dc : String) (l : String)
    (h : takesMajor l = true) : lineImage none omn dc l = l := by
  rw [lineImage.eq_def, if_pos h]

theorem lineImage_minor_some (omj : Option Int) (v : Int) (dc : String)
    (l : String) (h1 : takesMajor l = false) (h2 : takesMinor l = true) :
    lineImage omj (some v) dc l = majorTemplate v := by
  rw [lineImage.eq_def, if_neg (by rw [h1]; exact Bool.noConfusion), if_pos h2]

theorem lineImage_minor_none (omj : Option Int) (dc : String) (l : String)
    (h1 : takesMajor l = false) (h2 : takesMinor l = true) :
    lineImage omj none dc l = l := by
  rw [lineImage.eq_def, if_neg (by rw [h1]; exact Bool.noConfusion), if_pos h2]

theorem lineImage_version (omj omn : Option Int) (dc : String) (l : String)
    (h1 : takesMajor l = false) (h2 : takesMinor l = false)
    (h3 : takesVersion l = true) :
    lineImage omj omn dc l = versionTemplate dc := by
  rw [lineImage.eq_def, if_neg (by rw [h1]; exact Bool.noConfusion),
    if_neg (by rw [h2]; exact Bool.noConfusion), if_pos h3]

theorem lineImage_other (omj omn : Option Int) (dc : String) (l : String)
    (h1 : takesMajor l = false) (h2 : takesMinor l = false)
    (h3 : takesVersion l = false) :
    lineImage omj omn dc l = l := by
  rw [lineImage.eq_def, if_neg (by rw [h1]; exact Bool.noConfusion),
    if_neg (by rw [h2]; exact Bool.noConfusion),
    if_neg (by rw [h3]; exact Bool.noConfusion)]

theorem lineImage_id (dc : String) (l : String)
    (h : occursIn verPat l = false) : lineImage none none dc l = l := by
  have hv : takesVersion l = false := by
    rw [takesVersion, h]
    simp
  by_cases hA : takesMajor l = true
  · rw [lineImage_major_none none dc l hA]
  · rw [Bool.not_eq_true] at hA
    by_cases hB : takesMinor l = true
    · rw [lineImage_minor_none none dc l hA hB]
    · rw [Bool.not_eq_true] at hB
      exact lineImage_other none none dc l hA hB hv

theorem map_lineImage_id (dc : String) (seg : List String)
    (h : ∀ l ∈ seg, occursIn verPat l = false) :
    seg.map (lineImage none none dc) = seg := by
  induction seg with
  | nil => rfl
  | cons l tail ih =>
    rw [List.map_cons, lineImage_id dc l (h l (List.mem_cons_self _ _)),
      ih (fun l2 h2 => h l2 (List.mem_cons_of_mem _ h2))]

theorem provisionalUpd_cons (omj omn : Option Int) (l : String)
    (seg : List String) (r : Int) :
    provisionalUpd omj omn (l :: seg) r = provisionalUpd omj omn seg
      (if takesMajor l then
        match omj with
        | none => (parseParen l).getD r
        | some _ => r
      else if takesMinor l then
        match omn with
        | none => (parseParen l).getD r
        | some _ => r
      else r) := rfl

/-- One scan pass over a segment containing no revision marker, for a
file holding at most one major and one minor marker: the scan
completes, each line maps to its `lineImage`, `rev_number` ends at the
`provisionalUpd` fold, `same_day` is untouched when no version-branch
line contains the date code, and the major/minor components stay in
step with the overrides. -/
theorem segScanG (dc : String) (omj omn : Option Int) :
    ∀ (seg : List String) (st : ScanState),
    (∀ l ∈ seg, segLineOK omj omn l = true) →
    Aligned takesMajor omj st.major_version seg →
    Aligned takesMinor omn st.minor_version seg →
    ∃ st2, scanLines dc st seg = some (st2, seg.map (lineImage omj omn dc)) ∧
      st2.rev_number = provisionalUpd omj omn seg st.rev_number ∧
      ((∀ l ∈ seg, takesVersion l = true → occursIn dc l = false) →
        st2.same_day = st.same_day) ∧
      (omj ≠ none → st2.major_version = st.major_version) ∧
      (omj = none → (st2.major_version = none ↔
        (st.major_version = none ∧ seg.countP takesMajor = 0))) ∧
      (omn ≠ none → st2.minor_version = st.minor_version) ∧
      (omn = none → (st2.minor_version = none ↔
        (st.minor_version = none ∧ seg.countP takesMinor = 0))) := by
  intro seg
  induction seg with
  | nil =>
    intro st _ _ _
    exact ⟨st, scanLines_nil dc st, rfl, fun _ => rfl, fun _ => rfl,
      fun _ => by simp, fun _ => rfl, fun _ => by simp⟩
  | cons l tail ih =>
    intro st hOK hMa hNa
    have hl := hOK l (List.mem_cons_self _ _)
    have hOKt : ∀ l2 ∈ tail, segLineOK omj omn l2 = true :=
      fun l2 h2 => hOK l2 (List.mem_cons_of_mem _ h2)
    rw [segLineOK] at hl
    simp only [Bool.and_eq_true, Bool.or_eq_true, Bool.not_eq_true'] at hl
    obtain ⟨⟨hrevF, hpmaj⟩, hpmin⟩ := hl
    by_cases hA : occursIn majPat l = true
    · -- major branch
      have htm : takesMajor l = true := hA
      have htn : takesMinor l = false := by
        rw [takesMinor, hA]
        rfl
      have htv : takesVersion l = false := by
        rw [takesVersion, hA]
        rfl
      cases omj with
      | some v =>
        have hstm : st.major_version = some v := by
          rcases hMa with ⟨h1, _⟩ | ⟨h1, _⟩
          · exact h1
          · exact Option.noConfusion h1
        have hstep : processLine dc st l = some (st, majorTemplate v) :=
          processLine_major_tmpl dc st l v hA hstm
        have hMat : Aligned takesMajor (some v) st.major_version tail :=
          Or.inl ⟨hstm, fun ho => Option.noConfusion ho⟩
        have hNat : Aligned takesMinor omn st.minor_version tail :=
          aligned_tail _ _ _ _ _ htn hNa
        obtain ⟨st2, hEq, hRev, hSd, hE1, hE2, hE3, hE4⟩ := ih st hOKt hMat hNat
        refine ⟨st2, ?_, ?_, ?_, ?_, ?_, ?_, ?_⟩
        · rw [scanLines_cons_some dc st l tail st (majorTemplate v) hstep, hEq]
          dsimp only
          rw [List.map_cons, lineImage_major_some v omn dc l htm]
        · rw [provisionalUpd_cons, if_pos htm]
          exact hRev
        · intro hnv
          exact hSd (fun l2 h2 hv2 => hnv l2 (List.mem_cons_of_mem _ h2) hv2)
        · exact hE1
        · intro hc; exact Option.noConfusion hc
        · exact hE3
        · intro hc
          rw [hE4 hc, countP_cons_false takesMinor l tail htn]
      | none =>
        have hcnt : tail.countP takesMajor = 0 := by
          have hct := countP_cons_true takesMajor l tail htm
          rcases hMa with ⟨_, h2⟩ | ⟨_, h2⟩
          · have := h2 rfl
            omega
          · omega
        have hstm : st.major_version = none := by
          rcases hMa with ⟨h1, _⟩ | ⟨_, h2⟩
          · exact h1
          · rw [countP_cons_true takesMajor l tail htm] at h2
            exact absurd h2 (by omega)
        obtain ⟨v, hv⟩ := Option.isSome_iff_exists.mp (by
          rcases hpmaj with h | h
          · rw [htm] at h
            simp at h
          · exact h)
        have hstep : processLine dc st l =
            some ({ st with major_version := some v, rev_number := v }, l) :=
          processLine_major_parse dc st l v hA hstm hv
        have hMat : Aligned takesMajor none
            ({ st with major_version := some v, rev_number := v } :
              ScanState).major_version tail :=
          Or.inr ⟨rfl, hcnt⟩
        have hNat : Aligned takesMinor omn
            ({ st with major_version := some v, rev_number := v } :
              ScanState).minor_version tail :=
          aligned_tail _ _ _ _ _ htn hNa
        obtain ⟨st2, hEq, hRev, hSd, hE1, hE2, hE3, hE4⟩ := ih _ hOKt hMat hNat
        refine ⟨st2, ?_, ?_, ?_, ?_, ?_, ?_, ?_⟩
        · rw [scanLines_cons_some dc st l tail _ l hstep, hEq]
          dsimp only
          rw [List.map_cons, lineImage_major_none omn dc l htm]
        · rw [provisionalUpd_cons, if_pos htm]
          dsimp only
          rw [hv]
          exact hRev
        · intro hnv
          exact hSd (fun l2 h2 hv2 => hnv l2 (List.mem_cons_of_mem _ h2) hv2)
        · intro hc; exact absurd rfl hc
        · intro _
          constructor
          · intro h2
            rw [hE2 rfl] at h2
            exact absurd h2.1 (by simp)
          · intro h2
            rw [countP_cons_true takesMajor l tail htm] at h2
            exact absurd h2.2 (by omega)
        · exact hE3
        · intro hc
          rw [hE4 hc, countP_cons_false takesMinor l tail htn]
    · -- not the major branch
      rw [Bool.not_eq_true] at hA
      have htm : takesMajor l = false := hA
      by_cases hB : occursIn minPat l = true
      · -- minor branch
        have htn : takesMinor l = true := by
          rw [takesMinor, hA, hB]
          rfl
        have htv : takesVersion l = false := by
          rw [takesVersion, hA, hB]
          rfl
        cases omn with
        | some v =>
          have hstn : st.minor_version = some v := by
            rcases hNa with ⟨h1, _⟩ | ⟨h1, _⟩
            · exact h1
            · exact Option.noConfusion h1
          have hstep : processLine dc st l = some (st, majorTemplate v) :=
            processLine_minor_tmpl dc st l v htn hstn
          have hMat : Aligned takesMajor omj st.major_version tail :=
            aligned_tail _ _ _ _ _ htm hMa
          have hNat : Aligned takesMinor (some v) st.minor_version tail :=
            Or.inl ⟨hstn, fun ho => Option.noConfusion ho⟩
          obtain ⟨st2, hEq, hRev, hSd, hE1, hE2, hE3, hE4⟩ := ih st hOKt hMat hNat
          refine ⟨st2, ?_, ?_, ?_, ?_, ?_, ?_, ?_⟩
          · rw [scanLines_cons_some dc st l tail st (majorTemplate v) hstep, hEq]
            dsimp only
            rw [List.map_cons, lineImage_minor_some omj v dc l htm htn]
          · rw [provisionalUpd_cons,
              if_neg (by rw [htm]; exact Bool.noConfusion), if_pos htn]
            exact hRev
          · intro hnv
            exact hSd (fun l2 h2 hv2 => hnv l2 (List.mem_cons_of_mem _ h2) hv2)
          · exact hE1
          · intro hc
            rw [hE2 hc, countP_cons_false takesMajor l tail htm]
          · exact hE3
          · intro hc; exact Option.noConfusion hc
        | none =>
          have hcnt : tail.countP takesMinor = 0 := by
            have hct := countP_cons_true takesMinor l tail htn
            rcases hNa with ⟨_, h2⟩ | ⟨_, h2⟩
            · have := h2 rfl
              omega
            · omega
          have hstn : st.minor_version = none := by
            rcases hNa with ⟨h1, _⟩ | ⟨_, h2⟩
            · exact h1
            · rw [countP_cons_true takesMinor l tail htn] at h2
              exact absurd h2 (by omega)
          obtain ⟨v, hv⟩ := Option.isSome_iff_exists.mp (by
            rcases hpmin with h | h
            · rw [htn] at h
              simp at h
            · exact h)
          have hstep : processLine dc st l =
              some ({ st with minor_version := some v, rev_number := v }, l) :=
            processLine_minor_parse dc st l v htn hstn hv
          have hMat : Aligned takesMajor omj
              ({ st with minor_version := some v, rev_number := v } :
                ScanState).major_version tail :=
            aligned_tail _ _ _ _ _ htm hMa
          have hNat : Aligned takesMinor none
              ({ st with minor_version := some v, rev_number := v } :
                ScanState).minor_version tail :=
            Or.inr ⟨rfl, hcnt⟩
          obtain ⟨st2, hEq, hRev, hSd, hE1, hE2, hE3, hE4⟩ := ih _ hOKt hMat hNat
          refine ⟨st2, ?_, ?_, ?_, ?_, ?_, ?_, ?_⟩
          · rw [scanLines_cons_some dc st l tail _ l hstep, hEq]
            dsimp only
            rw [List.map_cons, lineImage_minor_none omj dc l htm htn]
          · rw [provisionalUpd_cons,
              if_neg (by rw [htm]; exact Bool.noConfusion), if_pos htn]
            dsimp only
            rw [hv]
            exact hRev
          · intro hnv
            exact hSd (fun l2 h2 hv2 => hnv l2 (List.mem_cons_of_mem _ h2) hv2)
          · exact hE1
          · intro hc
            rw [hE2 hc, countP_cons_false takesMajor l tail htm]
          · intro hc; exact absurd rfl hc
          · intro _
            constructor
            · intro h2
              rw [hE4 rfl] at h2
              exact absurd h2.1 (by simp)
            · intro h2
              rw [countP_cons_true takesMinor l tail htn] at h2
              exact absurd h2.2 (by omega)
      · -- not minor either
        rw [Bool.not_eq_true] at hB
        have htn : takesMinor l = false := by
          rw [takesMinor, hB]
          simp
        by_cases hC : occursIn verPat l = true
        · -- version branch
          have htv : takesVersion l = true := by
            rw [takesVersion, hA, hB, hC]
            rfl
          have hstep : processLine dc st l =
              some ({ st with same_day := st.same_day || occursIn dc l },
                versionTemplate dc) :=
            processLine_version dc st l htv
          have hMat : Aligned takesMajor omj
              ({ st with same_day := st.same_day || occursIn dc l } :
                ScanState).major_version tail :=
            aligned_tail _ _ _ _ _ htm hMa
          have hNat : Aligned takesMinor omn
              ({ st with same_day := st.same_day || occursIn dc l } :
                ScanState).minor_version tail :=
            aligned_tail _ _ _ _ _ htn hNa
          obtain ⟨st2, hEq, hRev, hSd, hE1, hE2, hE3, hE4⟩ := ih _ hOKt hMat hNat
          refine ⟨st2, ?_, ?_, ?_, ?_, ?_, ?_, ?_⟩
          · rw [scanLines_cons_some dc st l tail _ (versionTemplate dc) hstep, hEq]
            dsimp only
            rw [List.map_cons, lineImage_version omj omn dc l htm htn htv]
          · rw [provisionalUpd_cons,
              if_neg (by rw [htm]; exact Bool.noConfusion),
              if_neg (by rw [htn]; exact Bool.noConfusion)]
            exact hRev
          · intro hnv
            have hdcl : occursIn dc l = false :=
              hnv l (List.mem_cons_self _ _) htv
            have := hSd (fun l2 h2 hv2 => hnv l2 (List.mem_cons_of_mem _ h2) hv2)
            rw [this, hdcl, Bool.or_false]
          · intro hc
            rw [hE1 hc]
          · intro hc
            rw [hE2 hc, countP_cons_false takesMajor l tail htm]
          · intro hc
            rw [hE3 hc]
          · intro hc
            rw [hE4 hc, countP_cons_false takesMinor l tail htn]
        · -- plain line
          rw [Bool.not_eq_true] at hC
          have htv : takesVersion l = false := by
            rw [takesVersion, hC]
            simp
          have hnm : isMarkerLine l = false := by
            rw [isMarkerLine, hA, hB, hC, hrevF]
            rfl
          have hstep : processLine dc st l = some (st, l) :=
            processLine_nonmarker dc st l hnm
          have hMat : Aligned takesMajor omj st.major_version tail :=
            aligned_tail _ _ _ _ _ htm hMa
          have hNat : Aligned takesMinor omn st.minor_version tail :=
            aligned_tail _ _ _ _ _ htn hNa
          obtain ⟨st2, hEq, hRev, hSd, hE1, hE2, hE3, hE4⟩ := ih st hOKt hMat hNat
          refine ⟨st2, ?_, ?_, ?_, ?_, ?_, ?_, ?_⟩
          · rw [scanLines_cons_some dc st l tail st l hstep, hEq]
            dsimp only
            rw [List.map_cons, lineImage_other omj omn dc l htm htn htv]
          · rw [provisionalUpd_cons,
              if_neg (by rw [htm]; exact Bool.noConfusion),
              if_neg (by rw [htn]; exact Bool.noConfusion)]
            exact hRev
          · intro hnv
            exact hSd (fun l2 h2 hv2 => hnv l2 (List.mem_cons_of_mem _ h2) hv2)
          · exact hE1
          · intro hc
            rw [hE2 hc, countP_cons_false takesMajor l tail htm]
          · exact hE3
          · intro hc
            rw [hE4 hc, countP_cons_false takesMinor l tail htn]

theorem takesVersion_false_of_verFree (l : String)
    (h : occursIn verPat l = false) : takesVersion l = false := by
  rw [takesVersion, h]
  simp

theorem aligned_of_budget (p : String → Bool) (m : Option Int) (preCnt : Nat)
    (seg : List String) (hb : preCnt + seg.countP p ≤ 1)
    (hiff : m = none ↔ preCnt = 0) : Aligned p none m seg := by
  cases hm : m with
  | none => exact Or.inl ⟨rfl, fun _ => by omega⟩
  | some v =>
    have hpre : preCnt ≠ 0 := fun h0 => by
      rw [hiff.mpr h0] at hm
      exact Option.noConfusion hm
    exact Or.inr ⟨rfl, by omega⟩

theorem scanLines_append_some (dc : String) (pre rest : List String)
    (st st2 stF : ScanState) (outs outs2 : List String)
    (h1 : scanLines dc st pre = some (st2, outs))
    (h2 : scanLines dc st2 rest = some (stF, outs2)) :
    scanLines dc st (pre ++ rest) = some (stF, outs ++ outs2) := by
  rw [scanLines_append dc pre rest st, h1]
  dsimp only
  rw [h2]

theorem scanLines_cons_full (dc : String) (st : ScanState) (l : String)
    (ls : List String) (st2 : ScanState) (out : String) (stF : ScanState)
    (outs : List String)
    (h1 : processLine dc st l = some (st2, out))
    (h2 : scanLines dc st2 ls = some (stF, outs)) :
    scanLines dc st (l :: ls) = some (stF, out :: outs) := by
  rw [scanLines_cons_some dc st l ls st2 out h1, h2]

/-- One complete run (no overrides) on a file of shape
`P ++ lver :: (M ++ lrev :: S)`: the segments `P`, `M`, `S` are
arbitrary lines free of the version and revision marker substrings,
jointly holding at most one major and one minor marker, each of which
parses; `lver` takes the version branch and `lrev` the revision
branch.  The run completes, copies `P`, `M`, `S` through unchanged,
rewrites `lver` to the fresh date line and `lrev` to some revision
`ρ`; when `lver` already carries the fresh date code, `ρ` is the
revision parsed from `lrev` plus one. -/
theorem runOnce (year yday : Nat) (vb : Bool) (P M S : List String)
    (lver lrev : String)
    (hP : ∀ l ∈ P, segLineOK none none l = true ∧ occursIn verPat l = false)
    (hM : ∀ l ∈ M, segLineOK none none l = true ∧ occursIn verPat l = false)
    (hS : ∀ l ∈ S, segLineOK none none l = true ∧ occursIn verPat l = false)
    (hver : takesVersion lver = true)
    (hrev : takesRevision lrev = true)
    (hcma : (P ++ M ++ S).countP takesMajor ≤ 1)
    (hcmi : (P ++ M ++ S).countP takesMinor ≤ 1)
    (hsp : occursIn (dateCode year yday) lver = true →
      (parseParen lrev).isSome = true) :
    ∃ ρ : Int, ∃ o : MainOutput,
      mainRun year yday none none vb (P ++ lver :: (M ++ lrev :: S)) = some o ∧
      o.fileLines = P ++ versionTemplate (dateCode year yday) ::
        (M ++ revisionTemplate ρ :: S) ∧
      (occursIn (dateCode year yday) lver = true →
        ∀ r : Int, parseParen lrev = some r → ρ = r + 1) := by
  have hbMaj : P.countP takesMajor + M.countP takesMajor +
      S.countP takesMajor ≤ 1 := by
    have h := hcma
    rw [List.countP_append, List.countP_append] at h
    omega
  have hbMin : P.countP takesMinor + M.countP takesMinor +
      S.countP takesMinor ≤ 1 := by
    have h := hcmi
    rw [List.countP_append, List.countP_append] at h
    omega
  have hPver : ∀ l ∈ P, occursIn verPat l = false := fun l h => (hP l h).2
  have hMver : ∀ l ∈ M, occursIn verPat l = false := fun l h => (hM l h).2
  have hSver : ∀ l ∈ S, occursIn verPat l = false := fun l h => (hS l h).2
  have hPnv : ∀ l ∈ P, takesVersion l = true →
      occursIn (dateCode year yday) l = false := by
    intro l hl hv
    rw [takesVersion_false_of_verFree l (hPver l hl)] at hv
    exact Bool.noConfusion hv
  have hMnv : ∀ l ∈ M, takesVersion l = true →
      occursIn (dateCode year yday) l = false := by
    intro l hl hv
    rw [takesVersion_false_of_verFree l (hMver l hl)] at hv
    exact Bool.noConfusion hv
  obtain ⟨st1, hEqP, _, hSdP, _, hE2P, _, hE4P⟩ :=
    segScanG (dateCode year yday) none none P ⟨none, none, false, 0⟩
      (fun l h => (hP l h).1)
      (Or.inl ⟨rfl, fun _ => by omega⟩)
      (Or.inl ⟨rfl, fun _ => by omega⟩)
  rw [map_lineImage_id (dateCode year yday) P hPver] at hEqP
  have hsd1 : st1.same_day = false := hSdP hPnv
  have hiffMa1 : st1.major_version = none ↔ P.countP takesMajor = 0 := by
    rw [hE2P rfl]
    simp
  have hiffMi1 : st1.minor_version = none ↔ P.countP takesMinor = 0 := by
    rw [hE4P rfl]
    simp
  have hstepV : processLine (dateCode year yday) st1 lver =
      some ({ st1 with same_day := occursIn (dateCode year yday) lver },
        versionTemplate (dateCode year yday)) := by
    have g := processLine_version (dateCode year yday) st1 lver hver
    rw [hsd1, Bool.false_or] at g
    exact g
  obtain ⟨st2, hEqM, _, hSdM, _, hE2M, _, hE4M⟩ :=
    segScanG (dateCode year yday) none none M
      { st1 with same_day := occursIn (dateCode year yday) lver }
      (fun l h => (hM l h).1)
      (aligned_of_budget takesMajor _ (P.countP takesMajor) M (by omega) hiffMa1)
      (aligned_of_budget takesMinor _ (P.countP takesMinor) M (by omega) hiffMi1)
  rw [map_lineImage_id (dateCode year yday) M hMver] at hEqM
  have hsd2 : st2.same_day = occursIn (dateCode year yday) lver := hSdM hMnv
  have h2Ma := hE2M rfl
  have h2Mi := hE4M rfl
  dsimp only at h2Ma h2Mi
  have hiffMa2 : st2.major_version = none ↔
      P.countP takesMajor + M.countP takesMajor = 0 := by
    rw [h2Ma, hiffMa1]
    omega
  have hiffMi2 : st2.minor_version = none ↔
      P.countP takesMinor + M.countP takesMinor = 0 := by
    rw [h2Mi, hiffMi1]
    omega
  cases hdc : occursIn (dateCode year yday) lver with
  | true =>
    rw [hdc] at hsd2
    obtain ⟨r, hr⟩ := Option.isSome_iff_exists.mp (hsp hdc)
    have hstepR : processLine (dateCode year yday) st2 lrev =
        some ({ st2 with rev_number := r + 1 }, revisionTemplate (r + 1)) :=
      processLine_revision_bump _ _ _ r hrev hsd2 hr
    obtain ⟨st3, hEqS, _, _, _, _, _, _⟩ :=
      segScanG (dateCode year yday) none none S
        { st2 with rev_number := r + 1 }
        (fun l h => (hS l h).1)
        (aligned_of_budget takesMajor _
          (P.countP takesMajor + M.countP takesMajor) S (by omega) hiffMa2)
        (aligned_of_budget takesMinor _
          (P.countP takesMinor + M.countP takesMinor) S (by omega) hiffMi2)
    rw [map_lineImage_id (dateCode year yday) S hSver] at hEqS
    have hscan : scanLines (dateCode year yday) ⟨none, none, false, 0⟩
        (P ++ lver :: (M ++ lrev :: S)) =
        some (st3, P ++ versionTemplate (dateCode year yday) ::
          (M ++ revisionTemplate (r + 1) :: S)) := by
      refine scanLines_append_some _ P _ _ st1 st3 P _ hEqP ?_
      refine scanLines_cons_full _ st1 lver _ _
        (versionTemplate (dateCode year yday)) st3 _ hstepV ?_
      refine scanLines_append_some _ M _ _ st2 st3 M _ hEqM ?_
      exact scanLines_cons_full _ st2 lrev S _ (revisionTemplate (r + 1))
        st3 S hstepR hEqS
    refine ⟨r + 1, _,
      mainRun_eq_some year yday none none vb (P ++ lver :: (M ++ lrev :: S)) st3
        (P ++ versionTemplate (dateCode year yday) ::
          (M ++ revisionTemplate (r + 1) :: S)) hscan, rfl, ?_⟩
    intro _ r2 hr2
    rw [hr] at hr2
    injection hr2 with h3
    rw [h3]
  | false =>
    rw [hdc] at hsd2
    have hstepR : processLine (dateCode year yday) st2 lrev =
        some (st2, revisionTemplate st2.rev_number) :=
      processLine_revision_stale _ _ _ hrev hsd2
    obtain ⟨st3, hEqS, _, _, _, _, _, _⟩ :=
      segScanG (dateCode year yday) none none S st2
        (fun l h => (hS l h).1)
        (aligned_of_budget takesMajor _
          (P.countP takesMajor + M.countP takesMajor) S (by omega) hiffMa2)
        (aligned_of_budget takesMinor _
          (P.countP takesMinor + M.countP takesMinor) S (by omega) hiffMi2)
    rw [map_lineImage_id (dateCode year yday) S hSver] at hEqS
    have hscan : scanLines (dateCode year yday) ⟨none, none, false, 0⟩
        (P ++ lver :: (M ++ lrev :: S)) =
        some (st3, P ++ versionTemplate (dateCode year yday) ::
          (M ++ revisionTemplate st2.rev_number :: S)) := by
      refine scanLines_append_some _ P _ _ st1 st3 P _ hEqP ?_
      refine scanLines_cons_full _ st1 lver _ _
        (versionTemplate (dateCode year yday)) st3 _ hstepV ?_
      refine scanLines_append_some _ M _ _ st2 st3 M _ hEqM ?_
      exact scanLines_cons_full _ st2 lrev S _
        (revisionTemplate st2.rev_number) st3 S hstepR hEqS
    refine ⟨st2.rev_number, _,
      mainRun_eq_some year yday none none vb (P ++ lver :: (M ++ lrev :: S)) st3
        (P ++ versionTemplate (dateCode year yday) ::
          (M ++ revisionTemplate st2.rev_number :: S)) hscan, rfl, ?_⟩
    intro hct
    exact Bool.noConfusion hct

/-! ### Claims -/

/-- C1: the spec claims the minor-version marker is handled symmetrically
to the major one, the override being formatted into the *minor* marker
template.  The code instead formats the minor override with
`major_regex` (source line 84), so the rewritten line becomes a
`FW_MAJOR_VERSION` line: with `--minorV 7` on a file whose only marker
line is `    #define FW_MINOR_VERSION (5)`, the rewritten file reads
`    #define FW_MAJOR_VERSION (7)` and no longer contains the minor
marker at all. -/
theorem C1_code_bug :
    mainRun 2025 100 none (some 7) false ["    #define FW_MINOR_VERSION (5)"] =
      some { fileLines := ["    #define FW_MAJOR_VERSION (7)"],
             stdout := ["None.7.25100.0"] } ∧
    occursIn minPat "    #define FW_MAJOR_VERSION (7)" = false := by
  refine ⟨by decide, by decide⟩

/-- C2 counterexample: a four-marker file whose date code differs from
the computed one (`24090` vs `25100`), run with no overrides.  The
revision written to the file and printed is `5` (the parsed minor
value, via the shared provisional `rev_number`), not `0` as the claim
states. -/
theorem C2_counterexample :
    occursIn (dateCode 2025 100) "    #define FW_VERSION_VERSION (24090)" = false ∧
    mainRun 2025 100 none none false
        ["    #define FW_MAJOR_VERSION (2)", "    #define FW_MINOR_VERSION (5)",
         "    #define FW_VERSION_VERSION (24090)",
         "    #define FW_REVISION_VERSION (3)"] =
      some { fileLines :=
               ["    #define FW_MAJOR_VERSION (2)", "    #define FW_MINOR_VERSION (5)",
                "    #define FW_VERSION_VERSION (25100)",
                "    #define FW_REVISION_VERSION (5)"],
             stdout := ["2.5.25100.5"] } ∧
    parseParen "    #define FW_REVISION_VERSION (5)" = some 5 ∧ (5 : Int) ≠ 0 := by
  refine ⟨by decide, by decide, by decide, by decide⟩

/-- C2 (amended): on a different-day run (no version-marker line
before the revision marker carries the fresh date code) of any file
with one revision marker line and at most one major and one minor
marker line, each parseable when not overridden, the revision written
to the file is the provisional `rev_number` — the fold of the
unoverridden major/minor parses over the lines preceding the revision
marker, starting from 0 — and the revision emitted on stdout continues
that fold over the lines following the revision marker.  It is 0 only
when no unoverridden marker parse intervenes (for instance when both
overrides are supplied), not unconditionally. -/
theorem C2_amended (year yday : Nat) (omj omn : Option Int) (vb : Bool)
    (A B : List String) (lrev : String)
    (hA : ∀ l ∈ A, segLineOK omj omn l = true)
    (hB : ∀ l ∈ B, segLineOK omj omn l = true)
    (hrev : takesRevision lrev = true)
    (hcma : omj = none → (A ++ B).countP takesMajor ≤ 1)
    (hcmi : omn = none → (A ++ B).countP takesMinor ≤ 1)
    (hdiff : ∀ l ∈ A, takesVersion l = true →
      occursIn (dateCode year yday) l = false) :
    ∃ o : MainOutput,
      mainRun year yday omj omn vb (A ++ lrev :: B) = some o ∧
      o.fileLines = A.map (lineImage omj omn (dateCode year yday)) ++
        revisionTemplate (provisionalUpd omj omn A 0) ::
          B.map (lineImage omj omn (dateCode year yday)) ∧
      ∃ sM sN : String,
        o.stdout = (if vb then [successMsg] else []) ++
          [sM ++ "." ++ sN ++ "." ++ dateCode year yday ++ "." ++
           intRepr (provisionalUpd omj omn B (provisionalUpd omj omn A 0))] := by
  obtain ⟨st1, hEqA, hRevA, hSdA, hE1A, hE2A, hE3A, hE4A⟩ :=
    segScanG (dateCode year yday) omj omn A ⟨omj, omn, false, 0⟩ hA
      (Or.inl ⟨rfl, fun ho => by
        have h := hcma ho
        rw [List.countP_append] at h
        omega⟩)
      (Or.inl ⟨rfl, fun ho => by
        have h := hcmi ho
        rw [List.countP_append] at h
        omega⟩)
  have hsd1 : st1.same_day = false := hSdA hdiff
  have hRev1 : st1.rev_number = provisionalUpd omj omn A 0 := hRevA
  have hstepR : processLine (dateCode year yday) st1 lrev =
      some (st1, revisionTemplate st1.rev_number) :=
    processLine_revision_stale _ _ _ hrev hsd1
  have hMaB : Aligned takesMajor omj st1.major_version B := by
    cases homj : omj with
    | some v =>
      have h := hE1A (by rw [homj]; exact fun h2 => Option.noConfusion h2)
      refine Or.inl ⟨?_, fun ho => Option.noConfusion ho⟩
      rw [h, homj]
    | none =>
      have h := hE2A homj
      dsimp only at h
      refine aligned_of_budget takesMajor _ (A.countP takesMajor) B ?_ ?_
      · have h2 := hcma homj
        rw [List.countP_append] at h2
        omega
      · rw [h, homj]
        simp
  have hMiB : Aligned takesMinor omn st1.minor_version B := by
    cases homn : omn with
    | some v =>
      have h := hE3A (by rw [homn]; exact fun h2 => Option.noConfusion h2)
      refine Or.inl ⟨?_, fun ho => Option.noConfusion ho⟩
      rw [h, homn]
    | none =>
      have h := hE4A homn
      dsimp only at h
      refine aligned_of_budget takesMinor _ (A.countP takesMinor) B ?_ ?_
      · have h2 := hcmi homn
        rw [List.countP_append] at h2
        omega
      · rw [h, homn]
        simp
  obtain ⟨st2, hEqB, hRevB, _, _, _, _, _⟩ :=
    segScanG (dateCode year yday) omj omn B st1 hB hMaB hMiB
  have hscan : scanLines (dateCode year yday) ⟨omj, omn, false, 0⟩
      (A ++ lrev :: B) =
      some (st2, A.map (lineImage omj omn (dateCode year yday)) ++
        revisionTemplate st1.rev_number ::
          B.map (lineImage omj omn (dateCode year yday))) := by
    refine scanLines_append_some _ A _ _ st1 st2 _ _ hEqA ?_
    exact scanLines_cons_full _ st1 lrev B st1
      (revisionTemplate st1.rev_number) st2 _ hstepR hEqB
  refine ⟨_, mainRun_eq_some year yday omj omn vb (A ++ lrev :: B) st2
    (A.map (lineImage omj omn (dateCode year yday)) ++
      revisionTemplate st1.rev_number ::
        B.map (lineImage omj omn (dateCode year yday))) hscan, ?_, ?_⟩
  · dsimp only
    rw [hRev1]
  · refine ⟨showOpt st2.major_version, showOpt st2.minor_version, ?_⟩
    dsimp only
    rw [hRevB, hRev1]

/-- C2 witness: the amended statement on a concrete different-day file
whose minor marker follows the revision marker — the written revision
is the parsed major value 2, the emitted revision the parsed minor
value 5. -/
theorem C2_witness :
    (∀ l ∈ ["// hdr", "    #define FW_MAJOR_VERSION (2)",
        "    #define FW_VERSION_VERSION (24090)"],
      segLineOK none none l = true) ∧
    (∀ l ∈ ["    #define FW_MINOR_VERSION (5)"], segLineOK none none l = true) ∧
    takesRevision "    #define FW_REVISION_VERSION (3)" = true ∧
    (∀ l ∈ ["// hdr", "    #define FW_MAJOR_VERSION (2)",
        "    #define FW_VERSION_VERSION (24090)"],
      takesVersion l = true → occursIn (dateCode 2025 100) l = false) ∧
    ∃ o : MainOutput,
      mainRun 2025 100 none none false
        (["// hdr", "    #define FW_MAJOR_VERSION (2)",
          "    #define FW_VERSION_VERSION (24090)"] ++
          "    #define FW_REVISION_VERSION (3)" ::
            ["    #define FW_MINOR_VERSION (5)"]) = some o ∧
      o.fileLines = (["// hdr", "    #define FW_MAJOR_VERSION (2)",
          "    #define FW_VERSION_VERSION (24090)"]).map
            (lineImage none none (dateCode 2025 100)) ++
        revisionTemplate (provisionalUpd none none
          ["// hdr", "    #define FW_MAJOR_VERSION (2)",
           "    #define FW_VERSION_VERSION (24090)"] 0) ::
          (["    #define FW_MINOR_VERSION (5)"]).map
            (lineImage none none (dateCode 2025 100)) ∧
      ∃ sM sN : String,
        o.stdout = (if false then [successMsg] else []) ++
          [sM ++ "." ++ sN ++ "." ++ dateCode 2025 100 ++ "." ++
           intRepr (provisionalUpd none none
             ["    #define FW_MINOR_VERSION (5)"]
             (provisionalUpd none none
               ["// hdr", "    #define FW_MAJOR_VERSION (2)",
                "    #define FW_VERSION_VERSION (24090)"] 0))] :=
  ⟨by decide, by decide, by decide, by decide,
   C2_amended 2025 100 none none false
     ["// hdr", "    #define FW_MAJOR_VERSION (2)",
      "    #define FW_VERSION_VERSION (24090)"]
     ["    #define FW_MINOR_VERSION (5)"]
     "    #define FW_REVISION_VERSION (3)"
     (by decide) (by decide) (by decide) (by decide) (by decide) (by decide)⟩

/-- C3 counterexample: a file whose revision marker precedes the
version-date marker, run twice on the same day with no overrides.  The
first run writes revision `5`; the claim then demands `6` on the second
run, but the second run writes `5` again (the whole file is a fixed
point). -/
theorem C3_counterexample :
    mainRun 2025 100 none none false
        ["    #define FW_MAJOR_VERSION (2)", "    #define FW_MINOR_VERSION (5)",
         "    #define FW_REVISION_VERSION (3)",
         "    #define FW_VERSION_VERSION (25100)"] =
      some { fileLines :=
               ["    #define FW_MAJOR_VERSION (2)", "    #define FW_MINOR_VERSION (5)",
                "    #define FW_REVISION_VERSION (5)",
                "    #define FW_VERSION_VERSION (25100)"],
             stdout := ["2.5.25100.5"] } ∧
    mainRun 2025 100 none none false
        ["    #define FW_MAJOR_VERSION (2)", "    #define FW_MINOR_VERSION (5)",
         "    #define FW_REVISION_VERSION (5)",
         "    #define FW_VERSION_VERSION (25100)"] =
      some { fileLines :=
               ["    #define FW_MAJOR_VERSION (2)", "    #define FW_MINOR_VERSION (5)",
                "    #define FW_REVISION_VERSION (5)",
                "    #define FW_VERSION_VERSION (25100)"],
             stdout := ["2.5.25100.5"] } ∧
    parseParen "    #define FW_REVISION_VERSION (5)" = some 5 ∧
    (5 : Int) ≠ 5 + 1 := by
  refine ⟨by decide, by decide, by decide, by decide⟩

/-- C3 (amended): for any file in which a version-date marker line
precedes the (single) revision marker line — extra non-marker lines
and the at most one major and one minor marker placed anywhere, each
parseable — two same-day runs with no overrides copy every other line
(in particular the major and minor marker lines) through unchanged,
and the second run writes a revision exactly one greater than the
revision ρ written by the first run. -/
theorem C3_amended (year yday : Nat) (vb : Bool) (P M S : List String)
    (lver lrev : String)
    (hP : ∀ l ∈ P, segLineOK none none l = true ∧ occursIn verPat l = false)
    (hM : ∀ l ∈ M, segLineOK none none l = true ∧ occursIn verPat l = false)
    (hS : ∀ l ∈ S, segLineOK none none l = true ∧ occursIn verPat l = false)
    (hver : takesVersion lver = true)
    (hrev : takesRevision lrev = true)
    (hcma : (P ++ M ++ S).countP takesMajor ≤ 1)
    (hcmi : (P ++ M ++ S).countP takesMinor ≤ 1)
    (hsp : occursIn (dateCode year yday) lver = true →
      (parseParen lrev).isSome = true) :
    ∃ ρ : Int, ∃ o1 o2 : MainOutput,
      mainRun year yday none none vb (P ++ lver :: (M ++ lrev :: S)) = some o1 ∧
      o1.fileLines = P ++ versionTemplate (dateCode year yday) ::
        (M ++ revisionTemplate ρ :: S) ∧
      mainRun year yday none none vb o1.fileLines = some o2 ∧
      o2.fileLines = P ++ versionTemplate (dateCode year yday) ::
        (M ++ revisionTemplate (ρ + 1) :: S) := by
  obtain ⟨ρ, o1, h1, hf1, _⟩ :=
    runOnce year yday vb P M S lver lrev hP hM hS hver hrev hcma hcmi hsp
  have hverT : takesVersion (versionTemplate (dateCode year yday)) = true := by
    rw [takesVersion, majPat_not_in_verT, minPat_not_in_verT, verPat_in_verT]
    rfl
  have hrevT : takesRevision (revisionTemplate ρ) = true := by
    rw [takesRevision, majPat_not_in_revT, minPat_not_in_revT,
      verPat_not_in_revT, revPat_in_revT]
    rfl
  have hspT : occursIn (dateCode year yday)
        (versionTemplate (dateCode year yday)) = true →
      (parseParen (revisionTemplate ρ)).isSome = true := by
    intro _
    simp [parseParen_revT]
  obtain ⟨ρ2, o2, h2, hf2, hinc⟩ :=
    runOnce year yday vb P M S (versionTemplate (dateCode year yday))
      (revisionTemplate ρ) hP hM hS hverT hrevT hcma hcmi hspT
  have hbump : ρ2 = ρ + 1 := hinc (dc_in_verT _) ρ (parseParen_revT ρ)
  refine ⟨ρ, o1, o2, h1, hf1, ?_, ?_⟩
  · rw [hf1]
    exact h2
  · rw [hf2, hbump]

/-- C3 witness: the amended statement on a concrete file with extra
non-marker lines, the major marker before the version line and the
minor marker between the version and revision lines. -/
theorem C3_witness :
    (∀ l ∈ ["// header", "    #define FW_MAJOR_VERSION (1)"],
      segLineOK none none l = true ∧ occursIn verPat l = false) ∧
    (∀ l ∈ ["between", "    #define FW_MINOR_VERSION (4)"],
      segLineOK none none l = true ∧ occursIn verPat l = false) ∧
    (∀ l ∈ ["// trailer"],
      segLineOK none none l = true ∧ occursIn verPat l = false) ∧
    takesVersion "    #define FW_VERSION_VERSION (11111)" = true ∧
    takesRevision "    #define FW_REVISION_VERSION (9)" = true ∧
    ∃ ρ : Int, ∃ o1 o2 : MainOutput,
      mainRun 2025 100 none none false
        (["// header", "    #define FW_MAJOR_VERSION (1)"] ++
          "    #define FW_VERSION_VERSION (11111)" ::
            (["between", "    #define FW_MINOR_VERSION (4)"] ++
              "    #define FW_REVISION_VERSION (9)" :: ["// trailer"])) =
        some o1 ∧
      o1.fileLines = ["// header", "    #define FW_MAJOR_VERSION (1)"] ++
        versionTemplate (dateCode 2025 100) ::
          (["between", "    #define FW_MINOR_VERSION (4)"] ++
            revisionTemplate ρ :: ["// trailer"]) ∧
      mainRun 2025 100 none none false o1.fileLines = some o2 ∧
      o2.fileLines = ["// header", "    #define FW_MAJOR_VERSION (1)"] ++
        versionTemplate (dateCode 2025 100) ::
          (["between", "    #define FW_MINOR_VERSION (4)"] ++
            revisionTemplate (ρ + 1) :: ["// trailer"]) :=
  ⟨by decide, by decide, by decide, by decide, by decide,
   C3_amended 2025 100 false
     ["// header", "    #define FW_MAJOR_VERSION (1)"]
     ["between", "    #define FW_MINOR_VERSION (4)"]
     ["// trailer"]
     "    #define FW_VERSION_VERSION (11111)"
     "    #define FW_REVISION_VERSION (9)"
     (by decide) (by decide) (by decide) (by decide) (by decide)
     (by decide) (by decide) (by decide)⟩

/-- C4 counterexample: with computed date code `25100`, a version
marker line whose existing parenthesized date code is `125100` does
*not* textually equal it, yet `sameDay` is set (the code only tests
substring containment), observable as the subsequent revision marker
being bumped from 3 to 4. -/
theorem C4_counterexample :
    scanLines (dateCode 2025 100) ⟨none, none, false, 0⟩
        ["    #define FW_VERSION_VERSION (125100)",
         "    #define FW_REVISION_VERSION (3)"] =
      some (⟨none, none, true, 4⟩,
        ["    #define FW_VERSION_VERSION (25100)",
         "    #define FW_REVISION_VERSION (4)"]) ∧
    parenText "    #define FW_VERSION_VERSION (125100)" = some "125100" ∧
    ("125100" : String) ≠ dateCode 2025 100 := by
  refine ⟨by decide, by decide, by decide⟩

/-- C4 (amended): on a line taking the version-date branch, the line is
unconditionally replaced by the new date-code line, and `same_day`
becomes true exactly when it already was true or the computed date code
occurs as a *substring* of the line (`version_num_str in line`), which
coincides with textual equality of the parenthesized value only for
well-formed 5-digit values. -/
theorem C4_amended (dc : String) (st : ScanState) (line : String)
    (h : takesVersion line = true) :
    processLine dc st line =
      some ({ st with same_day := st.same_day || occursIn dc line },
        versionTemplate dc) :=
  processLine_version dc st line h

/-- C4 witness: the amended statement on a different-day concrete line:
`same_day` stays false and the line is still replaced. -/
theorem C4_witness :
    takesVersion "    #define FW_VERSION_VERSION (24090)" = true ∧
    processLine (dateCode 2025 100) ⟨none, none, false, 0⟩
        "    #define FW_VERSION_VERSION (24090)" =
      some (⟨none, none,
        false || occursIn (dateCode 2025 100) "    #define FW_VERSION_VERSION (24090)",
        0⟩, versionTemplate (dateCode 2025 100)) :=
  ⟨by decide, C4_amended (dateCode 2025 100) ⟨none, none, false, 0⟩
    "    #define FW_VERSION_VERSION (24090)" (by decide)⟩

/-- C5: whenever a run completes, the rewritten file has exactly as
many lines as the original, in order, and every line that contains none
of the four marker substrings is copied through byte-for-byte. -/
theorem C5_frame (year yday : Nat) (mj mn : Option Int) (vb : Bool)
    (lines : List String) (o : MainOutput)
    (h : mainRun year yday mj mn vb lines = some o) :
    o.fileLines.length = lines.length ∧
    ∀ i (hi : i < lines.length) (hi2 : i < o.fileLines.length),
      isMarkerLine (lines.get ⟨i, hi⟩) = false →
      o.fileLines.get ⟨i, hi2⟩ = lines.get ⟨i, hi⟩ := by
  rw [mainRun] at h
  cases hs : scanLines (dateCode year yday) ⟨mj, mn, false, 0⟩ lines with
  | none => rw [hs] at h; exact Option.noConfusion h
  | some q =>
    obtain ⟨st, outs⟩ := q
    rw [hs] at h
    simp only [Option.some.injEq] at h
    subst h
    exact ⟨scanLines_length _ _ _ _ _ hs,
      fun i hi hi2 hm => scanLines_get_nonmarker _ _ _ _ _ hs i hi hi2 hm⟩

/-- C5 witness: a run on a file with one non-marker line. -/
theorem C5_witness :
    mainRun 2025 100 none none false ["hello world"] =
      some (MainOutput.mk ["hello world"] ["None.None.25100.0"]) ∧
    ((MainOutput.mk ["hello world"] ["None.None.25100.0"]).fileLines.length =
        (["hello world"] : List String).length ∧
     ∀ i (hi : i < (["hello world"] : List String).length)
       (hi2 : i < (MainOutput.mk ["hello world"]
         ["None.None.25100.0"]).fileLines.length),
       isMarkerLine ((["hello world"] : List String).get ⟨i, hi⟩) = false →
       (MainOutput.mk ["hello world"] ["None.None.25100.0"]).fileLines.get ⟨i, hi2⟩ =
         (["hello world"] : List String).get ⟨i, hi⟩) :=
  ⟨by decide, C5_frame 2025 100 none none false ["hello world"] _ (by decide)⟩

/-- C6: after a completed run, re-reading the rewritten version-date
marker line (the text between its parentheses) reproduces the date
code, and the date code is the last two digits of the invocation year
followed by the zero-padded three-digit day-of-year — whatever the
marker's prior content was. -/
theorem C6_roundtrip (year yday : Nat) (mj mn : Option Int) (vb : Bool)
    (lines : List String) (o : MainOutput) (i : Nat)
    (hy1 : 1000 ≤ year) (hy2 : year ≤ 9999) (hd : yday ≤ 999)
    (h : mainRun year yday mj mn vb lines = some o)
    (hi : i < lines.length) (hi2 : i < o.fileLines.length)
    (hv : takesVersion (lines.get ⟨i, hi⟩) = true) :
    parenText (o.fileLines.get ⟨i, hi2⟩) = some (dateCode year yday) ∧
    (dateCode year yday).data =
      [digitChar (year % 100 / 10), digitChar (year % 100 % 10)] ++
        pad3 (natRepr yday).data ∧
    (pad3 (natRepr yday).data).length = 3 := by
  rw [mainRun] at h
  cases hs : scanLines (dateCode year yday) ⟨mj, mn, false, 0⟩ lines with
  | none => rw [hs] at h; exact Option.noConfusion h
  | some q =>
    obtain ⟨st, outs⟩ := q
    rw [hs] at h
    simp only [Option.some.injEq] at h
    subst h
    have hget : outs.get ⟨i, hi2⟩ = versionTemplate (dateCode year yday) :=
      scanLines_get_version _ _ _ _ _ hs i hi hi2 hv
    refine ⟨?_, dateCode_data year yday hy1 hy2, pad3_length yday hd⟩
    show parenText (outs.get ⟨i, hi2⟩) = some (dateCode year yday)
    rw [hget]
    exact parenText_verT _ (fun c hc => by
      obtain ⟨k, hk, rfl⟩ := dateCode_chars year yday c hc
      exact ⟨digitChar_ne_open k hk, digitChar_ne_close k hk⟩)

/-- C6 witness: a concrete run on a one-line file whose old date code
is `24090`, invoked on day 100 of 2025. -/
theorem C6_witness :
    mainRun 2025 100 none none false ["    #define FW_VERSION_VERSION (24090)"] =
      some (MainOutput.mk ["    #define FW_VERSION_VERSION (25100)"]
        ["None.None.25100.0"]) ∧
    (parenText ((MainOutput.mk ["    #define FW_VERSION_VERSION (25100)"]
        ["None.None.25100.0"]).fileLines.get ⟨0, by decide⟩) =
      some (dateCode 2025 100) ∧
     (dateCode 2025 100).data =
       [digitChar (2025 % 100 / 10), digitChar (2025 % 100 % 10)] ++
         pad3 (natRepr 100).data ∧
     (pad3 (natRepr 100).data).length = 3) :=
  ⟨by decide,
   C6_roundtrip 2025 100 none none false ["    #define FW_VERSION_VERSION (24090)"]
     (MainOutput.mk ["    #define FW_VERSION_VERSION (25100)"] ["None.None.25100.0"])
     0 (by decide) (by decide) (by decide) (by decide) (by decide) (by decide)
     (by decide)⟩

/-- C7 counterexample: a successful run on a file containing no major
or minor marker (the spec's own input domain allows "at most one
occurrence" of each marker).  The single printed line is
`None.None.25100.0`, which does not match the
`\x7bint\x7d.\x7bint\x7d.\x7b5-digit int\x7d.\x7bint\x7d` pattern, so
no printed line matches it. -/
theorem C7_counterexample :
    mainRun 2025 100 none none false [] =
      some (MainOutput.mk [] ["None.None.25100.0"]) ∧
    List.countP isVersionPattern ["None.None.25100.0"] = 0 ∧ (0 : Nat) ≠ 1 := by
  refine ⟨by decide, by decide, by decide⟩

/-- C7 (amended): a successful run prints exactly one line matching
`\x7bint\x7d.\x7bint\x7d.\x7b5-digit int\x7d.\x7bint\x7d`, independent
of the verbose flag, provided the scan supplied integer major and minor
values (marker present or override given), the invocation year has four
digits and the day-of-year at most three; a missing major/minor prints
as `None` instead. -/
theorem C7_amended (year yday : Nat) (mj mn : Option Int) (vb : Bool)
    (lines : List String) (st : ScanState) (outs : List String) (M N : Int)
    (hy1 : 1000 ≤ year) (hy2 : year ≤ 9999) (hd : yday ≤ 999)
    (hscan : scanLines (dateCode year yday) ⟨mj, mn, false, 0⟩ lines =
      some (st, outs))
    (hM : st.major_version = some M) (hN : st.minor_version = some N) :
    ∃ o, mainRun year yday mj mn vb lines = some o ∧
      o.stdout.countP isVersionPattern = 1 := by
  refine ⟨_, mainRun_eq_some year yday mj mn vb lines st outs hscan, ?_⟩
  have hline := isVersionPattern_line M N st.rev_number (dateCode year yday)
    (dateCode_length year yday hy1 hy2 hd) (dateCode_chars year yday)
  dsimp only
  rw [hM, hN]
  cases vb with
  | false => simp [List.countP_cons, showOpt, hline]
  | true => simp [List.countP_cons, showOpt, hline, isVersionPattern_successMsg]

/-- C7 witness: a verbose run on a two-marker file; exactly one of the
two printed lines matches the pattern. -/
theorem C7_witness :
    scanLines (dateCode 2025 100) ⟨none, none, false, 0⟩
        ["    #define FW_MAJOR_VERSION (2)", "    #define FW_MINOR_VERSION (5)"] =
      some (⟨some 2, some 5, false, 5⟩,
        ["    #define FW_MAJOR_VERSION (2)", "    #define FW_MINOR_VERSION (5)"]) ∧
    (⟨some 2, some 5, false, 5⟩ : ScanState).major_version = some 2 ∧
    (⟨some 2, some 5, false, 5⟩ : ScanState).minor_version = some 5 ∧
    (∃ o, mainRun 2025 100 none none true
        ["    #define FW_MAJOR_VERSION (2)", "    #define FW_MINOR_VERSION (5)"] =
      some o ∧ o.stdout.countP isVersionPattern = 1) :=
  ⟨by decide, rfl, rfl,
   C7_amended 2025 100 none none true
     ["    #define FW_MAJOR_VERSION (2)", "    #define FW_MINOR_VERSION (5)"]
     ⟨some 2, some 5, false, 5⟩
     ["    #define FW_MAJOR_VERSION (2)", "    #define FW_MINOR_VERSION (5)"]
     2 5 (by decide) (by decide) (by decide) (by decide) rfl rfl⟩

/-- C8: every invocation either completes the scan — in which case the
installed file is the fully rewritten content, covering every line of
the original — or aborts with no scan result, in which case the target
file keeps its original content.  (The rename step itself and
crash-while-writing-the-temp behavior are OS-level and are modelled by
`fileAfter` selecting between the two outcomes.) -/
theorem C8_atomic (year yday : Nat) (mj mn : Option Int) (vb : Bool)
    (lines : List String) :
    (mainRun year yday mj mn vb lines = none ∧
      fileAfter year yday mj mn vb lines = lines) ∨
    (∃ o, mainRun year yday mj mn vb lines = some o ∧
      fileAfter year yday mj mn vb lines = o.fileLines ∧
      o.fileLines.length = lines.length) := by
  cases hm : mainRun year yday mj mn vb lines with
  | none => exact Or.inl ⟨rfl, by rw [fileAfter, hm]⟩
  | some o =>
    refine Or.inr ⟨o, rfl, by rw [fileAfter, hm], ?_⟩
    rw [mainRun] at hm
    cases hs : scanLines (dateCode year yday) ⟨mj, mn, false, 0⟩ lines with
    | none => rw [hs] at hm; exact Option.noConfusion hm
    | some q =>
      obtain ⟨st, outs⟩ := q
      rw [hs] at hm
      simp only [Option.some.injEq] at hm
      rw [← hm]
      exact scanLines_length _ _ _ _ _ hs

/-- C9 counterexample: a major marker line with an opening parenthesis
but no matching closing one — `    #define FW_MAJOR_VERSION (3` — does
not abort: `split("(")[1].split(")")[0]` still yields `3`, the run
completes and prints `3.None.25100.3`.  The claim's "does not contain
an integer inside matching parentheses ⇒ aborts" is therefore false. -/
theorem C9_counterexample :
    occursIn ")" "    #define FW_MAJOR_VERSION (3" = false ∧
    mainRun 2025 100 none none false ["    #define FW_MAJOR_VERSION (3"] =
      some (MainOutput.mk ["    #define FW_MAJOR_VERSION (3"]
        ["3.None.25100.3"]) := by
  refine ⟨by decide, by decide⟩

/-- C9 (amended): a marker line whose value must be parsed (major or
minor with no override yet, or the revision marker with `sameDay` set)
aborts the run before the original file is replaced exactly when the
parse fails: no `(` at all, or the text between the first `(` and the
next `(`/`)` (or end of line) is not an integer literal.  A missing
closing parenthesis with integer content does not abort, and no error
kind is distinguished or recovered. -/
theorem C9_amended (year yday : Nat) (mj mn : Option Int) (vb : Bool)
    (pre post : List String) (l : String) (st : ScanState) (outs : List String)
    (hscan : scanLines (dateCode year yday) ⟨mj, mn, false, 0⟩ pre =
      some (st, outs))
    (hmust : mustParse st l = true)
    (hbad : parseParen l = none) :
    mainRun year yday mj mn vb (pre ++ l :: post) = none ∧
    fileAfter year yday mj mn vb (pre ++ l :: post) = pre ++ l :: post := by
  have habort : scanLines (dateCode year yday) ⟨mj, mn, false, 0⟩
      (pre ++ l :: post) = none := by
    rw [scanLines_append, hscan]
    dsimp only
    rw [scanLines, processLine_none _ _ _ hmust hbad]
  have hm : mainRun year yday mj mn vb (pre ++ l :: post) = none :=
    mainRun_eq_none year yday mj mn vb _ habort
  exact ⟨hm, by rw [fileAfter, hm]⟩

/-- C9 witness: the amended statement at a major marker line whose
parenthesized text is not numeric. -/
theorem C9_witness :
    mustParse ⟨none, none, false, 0⟩ "    #define FW_MAJOR_VERSION (x)" = true ∧
    parseParen "    #define FW_MAJOR_VERSION (x)" = none ∧
    (mainRun 2025 100 none none false ["    #define FW_MAJOR_VERSION (x)"] = none ∧
     fileAfter 2025 100 none none false ["    #define FW_MAJOR_VERSION (x)"] =
       ["    #define FW_MAJOR_VERSION (x)"]) :=
  ⟨by decide, by decide,
   C9_amended 2025 100 none none false [] [] "    #define FW_MAJOR_VERSION (x)"
     ⟨none, none, false, 0⟩ [] rfl (by decide) (by decide)⟩

/-- C10: if no line before the revision marker contains the
version-date marker substring, `same_day` is still false when the
revision marker is processed, so the line written is the provisional
`rev_number` rendered into the revision template — never the parsed old
revision plus one — even if a matching date code appears later in the
file. -/
theorem C10_order (year yday : Nat) (mj mn : Option Int)
    (pre : List String) (l : String) (st : ScanState) (outs : List String)
    (hscan : scanLines (dateCode year yday) ⟨mj, mn, false, 0⟩ pre =
      some (st, outs))
    (hpre : ∀ p ∈ pre, occursIn verPat p = false)
    (hl : takesRevision l = true) :
    st.same_day = false ∧
    processLine (dateCode year yday) st l =
      some (st, revisionTemplate st.rev_number) := by
  have hsd : st.same_day = false :=
    (scanLines_same_day _ pre _ st outs hscan hpre).trans rfl
  exact ⟨hsd, processLine_revision_stale _ _ _ hl hsd⟩

/-- C10 witness: a minor marker before the revision marker; the
revision line is rewritten with the provisional value 5 (the parsed
minor), not 3 + 1, although the file's date marker (which comes later)
matches the computed date code. -/
theorem C10_witness :
    scanLines (dateCode 2025 100) ⟨none, none, false, 0⟩
        ["    #define FW_MINOR_VERSION (5)"] =
      some (⟨none, some 5, false, 5⟩, ["    #define FW_MINOR_VERSION (5)"]) ∧
    (∀ p ∈ (["    #define FW_MINOR_VERSION (5)"] : List String),
      occursIn verPat p = false) ∧
    takesRevision "    #define FW_REVISION_VERSION (3)" = true ∧
    ((⟨none, some 5, false, 5⟩ : ScanState).same_day = false ∧
     processLine (dateCode 2025 100) ⟨none, some 5, false, 5⟩
        "    #define FW_REVISION_VERSION (3)" =
      some (⟨none, some 5, false, 5⟩, revisionTemplate 5)) :=
  ⟨by decide, by decide, by decide,
   C10_order 2025 100 none none ["    #define FW_MINOR_VERSION (5)"]
     "    #define FW_REVISION_VERSION (3)" ⟨none, some 5, false, 5⟩
     ["    #define FW_MINOR_VERSION (5)"] (by decide) (by decide) (by decide)⟩

end UpdateFW
